import Mathlib

/-!
Shallow embedding of the APA MPFR memory manager and dense matrix kernels
(files src/inst/mex/gmp_mpfr_interface.h, src/inst/mex/mex_mpfr_algorithms.c,
src/inst/mex/mex_mpfr_algorithms_mmm.c, src/src/mpfr_interface.c), together
with theorems settling the frozen specification claims.

MPFR numeric values are modelled by an abstract type V.  Numeric operations
(mpfr_fma, mpfr_set) are passed in as function parameters returning a value
together with the MPFR ternary status (an Int); instantiating V with Int and
exact arithmetic yields a faithful instance of MPFR behaviour on small
integers at default precision (53 bits), where all involved operations are
exact.
-/

namespace Apa

/-- Index range type from gmp_mpfr_interface.h (struct with size_t start, end;
both 1-based inclusive).  The C field end is spelled end_ because end is a
Lean keyword. -/
structure idx_t where
  start : Nat
  end_ : Nat
deriving DecidableEq, Repr

/-- Source function is_valid of gmp_mpfr_interface.h: a range is valid iff
1 <= start <= end <= data_size.  data_size is passed explicitly here because
the C code reads it from a global. -/
def is_valid (data_size : Nat) (idx : idx_t) : Bool :=
  decide (1 ≤ idx.start) && decide (idx.start ≤ idx.end_)
    && decide (idx.end_ ≤ data_size)

/-- Source function length of gmp_mpfr_interface.h: end - start + 1 (size_t
arithmetic; all uses in the claims are on ranges with start <= end, where
Nat subtraction agrees with the C computation). -/
def length (idx : idx_t) : Nat :=
  idx.end_ - idx.start + 1

/-- The fixed growth chunk DATA_CHUNK_SIZE of gmp_mpfr_interface.h. -/
def DATA_CHUNK_SIZE : Nat := 1000

/-- Global state of the memory manager of gmp_mpfr_interface.h: the data
array of MPFR values (modelled as contents vals plus a data_null flag
recording whether the C pointer data is NULL), its capacity and size, and
the free list (live entries as a list, so free_list_size is the list
length) together with its capacity and NULL flag. -/
structure MState (V : Type) where
  data_null : Bool
  data_capacity : Nat
  data_size : Nat
  vals : Nat → V
  free_null : Bool
  free_list : List idx_t
  free_list_capacity : Nat

/-- The initial state of the translation unit: both pointers NULL, all
counters zero. -/
def initState (V : Type) (d : V) : MState V :=
  { data_null := true, data_capacity := 0, data_size := 0, vals := fun _ => d,
    free_null := true, free_list := [], free_list_capacity := 0 }

/-- Pointwise update of a flat array modelled as a function. -/
def write {V : Type} (p : Nat → V) (i : Nat) (v : V) : Nat → V :=
  fun n => if n = i then v else p n

/-- Source function free_list_remove of gmp_mpfr_interface.h, modelled on
the raw backing array (a function) and the live size, exactly as the C
loop executes: for (; i < free_list_size; i++) free_list[i] = free_list[i+1];
free_list_size--.  Note the final iteration reads index free_list_size, one
past the live region. -/
def free_list_remove_loop (f : Nat → idx_t) (size i : Nat) : Nat → idx_t :=
  if i < size then free_list_remove_loop (write f i (f (i + 1))) size (i + 1)
  else f
termination_by size - i

/-- Source function free_list_remove: the loop above followed by the size
decrement. -/
def free_list_remove (f : Nat → idx_t) (size i : Nat) :
    (Nat → idx_t) × Nat :=
  (free_list_remove_loop f size i, size - 1)

/-- The two free-list adjacency tests of Rule 2 in free_list_compress:
free_list[i].end + 1 == free_list[j].start or
free_list[j].end + 1 == free_list[i].start. -/
def adj (a b : idx_t) : Bool :=
  decide (a.end_ + 1 = b.start) || decide (b.end_ + 1 = a.start)

/-- One action found by a scan of free_list_compress: Rule 1 (shrink the
data size at entry i) or Rule 2 (merge entries i and j, i < j). -/
inductive CompressAct where
  | rule1 (i : Nat)
  | rule2 (i j : Nat)
deriving DecidableEq, Repr

/-- Inner loop of free_list_compress Rule 2: scan the entries after entry i
(the list argument is the suffix of the free list after position j - 1, the
Nat argument the absolute position j of its head) and return the absolute
position of the first entry adjacent to e. -/
def scan_adj (e : idx_t) : List idx_t → Nat → Option Nat
  | [], _ => none
  | f :: rest, j => if adj e f then some j else scan_adj e rest (j + 1)

/-- Outer scan of one pass of free_list_compress: walk the entries (the
list argument is the suffix of the free list from absolute position i on);
at each entry check Rule 1 (end == data_size) first, then Rule 2 against
all later entries; return the first action found, exactly in the order the
C loops test.  Actions carry absolute positions. -/
def scan_rule (ds : Nat) : List idx_t → Nat → Option CompressAct
  | [], _ => none
  | e :: rest, i =>
    if e.end_ = ds then some (CompressAct.rule1 i)
    else
      match scan_adj e rest (i + 1) with
      | some j => some (CompressAct.rule2 i j)
      | none => scan_rule ds rest (i + 1)

/-- The merged range of Rule 2 of free_list_compress: the C code stores
the smaller start and the larger end (written with the two comparisons of
the source). -/
def merge_idx (e f : idx_t) : idx_t :=
  { start := if e.start ≤ f.start then e.start else f.start,
    end_ := if e.end_ ≥ f.end_ then e.end_ else f.end_ }

/-- Apply one action of free_list_compress to the state: Rule 1 removes
entry i and decreases data_size to its start - 1; Rule 2 stores the merged
range at entry i and removes entry j.  Removal is List.eraseIdx, which
agrees with the live region of free_list_remove (lemma
free_list_remove_loop_apply below). -/
def apply_act {V : Type} (s : MState V) : CompressAct → MState V
  | CompressAct.rule1 i =>
    match s.free_list[i]? with
    | some e =>
      { s with data_size := e.start - 1, free_list := s.free_list.eraseIdx i }
    | none => s
  | CompressAct.rule2 i j =>
    match s.free_list[i]?, s.free_list[j]? with
    | some e, some f =>
      { s with free_list := (s.free_list.set i (merge_idx e f)).eraseIdx j }
    | _, _ => s

/-- Where scan_adj reports an adjacency: an in-bounds later entry adjacent
to e. -/
theorem scan_adj_spec (e : idx_t) :
    ∀ (l : List idx_t) (j0 j : Nat), scan_adj e l j0 = some j →
      j0 ≤ j ∧ ∃ h : j - j0 < l.length, adj e l[j - j0] = true := by
  intro l
  induction l with
  | nil => intro j0 j h; exact absurd h (by simp [scan_adj])
  | cons f rest ih =>
    intro j0 j h
    rw [scan_adj] at h
    by_cases hadj : adj e f
    · simp only [hadj, if_true, Option.some.injEq] at h
      subst h
      exact ⟨Nat.le_refl _, by simp, by simpa using hadj⟩
    · simp only [hadj, if_false] at h
      obtain ⟨hle, hlt, hval⟩ := ih (j0 + 1) j h
      refine ⟨Nat.le_of_succ_le hle, ?_⟩
      have hd : j - j0 = (j - (j0 + 1)) + 1 := by omega
      have hlt' : j - j0 < (f :: rest).length := by simp; omega
      refine ⟨hlt', ?_⟩
      have : (f :: rest)[j - j0] = rest[j - (j0 + 1)] := by
        simp only [hd]
        simp
      rw [this]
      exact hval

/-- Where scan_rule reports a Rule 1 action: the in-bounds entry whose end
matches the data size. -/
theorem scan_rule_spec_rule1 (ds : Nat) :
    ∀ (l : List idx_t) (i k : Nat),
      scan_rule ds l i = some (CompressAct.rule1 k) →
      i ≤ k ∧ ∃ h : k - i < l.length, l[k - i].end_ = ds := by
  intro l
  induction l with
  | nil => intro i k h; exact absurd h (by simp [scan_rule])
  | cons e rest ih =>
    intro i k h
    rw [scan_rule] at h
    by_cases hend : e.end_ = ds
    · simp only [hend, if_true, Option.some.injEq] at h
      cases h
      exact ⟨Nat.le_refl _, by simp, by simpa using hend⟩
    · simp only [hend, if_false] at h
      cases hsa : scan_adj e rest (i + 1) with
      | some j => rw [hsa] at h; cases h
      | none =>
        rw [hsa] at h
        obtain ⟨hle, hlt, hval⟩ := ih (i + 1) k h
        refine ⟨Nat.le_of_succ_le hle, ?_⟩
        have hd : k - i = (k - (i + 1)) + 1 := by omega
        have hlt' : k - i < (e :: rest).length := by simp; omega
        refine ⟨hlt', ?_⟩
        have : (e :: rest)[k - i] = rest[k - (i + 1)] := by
          simp only [hd]; simp
        rw [this]; exact hval

/-- Where scan_rule reports a Rule 2 action: two in-bounds adjacent
entries, the first one strictly before the second. -/
theorem scan_rule_spec_rule2 (ds : Nat) :
    ∀ (l : List idx_t) (i k j : Nat),
      scan_rule ds l i = some (CompressAct.rule2 k j) →
      i ≤ k ∧ k < j ∧
        ∃ (hk : k - i < l.length) (hj : j - i < l.length),
          adj l[k - i] l[j - i] = true := by
  intro l
  induction l with
  | nil => intro i k j h; exact absurd h (by simp [scan_rule])
  | cons e rest ih =>
    intro i k j h
    rw [scan_rule] at h
    by_cases hend : e.end_ = ds
    · simp only [hend, if_true, Option.some.injEq] at h; cases h
    · simp only [hend, if_false] at h
      cases hsa : scan_adj e rest (i + 1) with
      | some j' =>
        rw [hsa] at h
        cases h
        obtain ⟨hle, hlt, hval⟩ := scan_adj_spec e rest (i + 1) j hsa
        refine ⟨Nat.le_refl _, Nat.lt_of_succ_le hle, ?_⟩
        have hk : i - i < (e :: rest).length := by simp
        have hj' : j - i < (e :: rest).length := by simp; omega
        refine ⟨hk, hj', ?_⟩
        have h0 : (e :: rest)[i - i] = e := by simp
        have hdj : j - i = (j - (i + 1)) + 1 := by omega
        have h1 : (e :: rest)[j - i] = rest[j - (i + 1)] := by
          simp only [hdj]; simp
        rw [h0, h1]
        exact hval
      | none =>
        rw [hsa] at h
        obtain ⟨hle, hkj, hk, hj', hval⟩ := ih (i + 1) k j h
        refine ⟨Nat.le_of_succ_le hle, hkj, ?_⟩
        have hk' : k - i < (e :: rest).length := by simp; omega
        have hj'' : j - i < (e :: rest).length := by simp; omega
        refine ⟨hk', hj'', ?_⟩
        have hdk : k - i = (k - (i + 1)) + 1 := by omega
        have hdj : j - i = (j - (i + 1)) + 1 := by omega
        have e1 : (e :: rest)[k - i] = rest[k - (i + 1)] := by
          simp only [hdk]; simp
        have e2 : (e :: rest)[j - i] = rest[j - (i + 1)] := by
          simp only [hdj]; simp
        rw [e1, e2]
        exact hval

/-- Applying a found action strictly shrinks the free list. -/
theorem apply_act_length {V : Type} (s : MState V) (a : CompressAct)
    (ha : scan_rule s.data_size s.free_list 0 = some a) :
    (apply_act s a).free_list.length < s.free_list.length := by
  cases a with
  | rule1 i =>
    obtain ⟨-, hi, -⟩ := scan_rule_spec_rule1 s.data_size s.free_list 0 i ha
    rw [Nat.sub_zero] at hi
    simp only [apply_act]
    rw [List.getElem?_eq_getElem hi]
    simp only [List.length_eraseIdx, hi, if_true]
    omega
  | rule2 i j =>
    obtain ⟨-, hij, hi, hj, -⟩ :=
      scan_rule_spec_rule2 s.data_size s.free_list 0 i j ha
    rw [Nat.sub_zero] at hi hj
    simp only [apply_act]
    rw [List.getElem?_eq_getElem hi, List.getElem?_eq_getElem hj]
    simp only [List.length_eraseIdx, List.length_set]
    simp only [hj, if_true]
    omega

/-- The scan-and-apply iteration of free_list_compress, with an explicit
bound on the remaining number of rule firings.  Every firing removes one
free-list entry (theorem apply_act_length), so a fuel equal to the list
length is reached only with an empty list, where no rule can fire: with
that fuel this function computes the exact fixed point of the C do-while
loop (theorem free_list_compress_scan_none below). -/
def free_list_compress_loop {V : Type} : Nat → MState V → MState V
  | 0, s => s
  | fuel + 1, s =>
    match scan_rule s.data_size s.free_list 0 with
    | none => s
    | some a => free_list_compress_loop fuel (apply_act s a)

/-- Source function free_list_compress of gmp_mpfr_interface.h: repeat the
scan-and-apply step until no rule fires (the C do-while with have_merge). -/
def free_list_compress {V : Type} (s : MState V) : MState V :=
  free_list_compress_loop s.free_list.length s

/-- The loop really reaches the fixed point: with fuel at least the list
length, no rule fires on the result.  This justifies the fuel bound of
free_list_compress as an exact rendering of the C do-while loop. -/
theorem free_list_compress_loop_scan_none {V : Type} :
    ∀ (fuel : Nat) (s : MState V), s.free_list.length ≤ fuel →
      scan_rule (free_list_compress_loop fuel s).data_size
        (free_list_compress_loop fuel s).free_list 0 = none := by
  intro fuel
  induction fuel with
  | zero =>
    intro s hs
    have : s.free_list = [] := List.length_eq_zero.mp (Nat.le_zero.mp hs)
    simp [free_list_compress_loop, this, scan_rule]
  | succ fuel ih =>
    intro s hs
    rw [free_list_compress_loop]
    cases h : scan_rule s.data_size s.free_list 0 with
    | none => exact h
    | some a =>
      exact ih (apply_act s a)
        (Nat.le_of_lt_succ (Nat.lt_of_lt_of_le (apply_act_length s a h) hs))

/-- No compression rule fires on the result of free_list_compress. -/
theorem free_list_compress_scan_none {V : Type} (s : MState V) :
    scan_rule (free_list_compress s).data_size
      (free_list_compress s).free_list 0 = none :=
  free_list_compress_loop_scan_none s.free_list.length s (Nat.le_refl _)

/-- The part of mex_mpfr_mark_free after the capacity check: reinitialize
the variables of the range (mpfr_clear and mpfr_init yield the default
value d), append the range to the free list, and compress. -/
def mex_mpfr_mark_free_body {V : Type} (d : V) (idx : idx_t)
    (s1 : MState V) : MState V :=
  let s2 : MState V :=
    { s1 with vals := fun n =>
        if idx.start - 1 ≤ n ∧ n < idx.end_ then d else s1.vals n }
  free_list_compress { s2 with free_list := s2.free_list ++ [idx] }

/-- Source function mex_mpfr_mark_free of gmp_mpfr_interface.h: do nothing
on an invalid range; grow the free list backing storage if it is full
(grow_ok models success of the mxMalloc or mxRealloc call; on failure the
C code has set the global free_list pointer to the NULL result of
mxRealloc before checking it, and returns with capacity, size and the
entries counters untouched); then reinitialize, append and compress. -/
def mex_mpfr_mark_free {V : Type} (grow_ok : Bool) (d : V) (idx : idx_t)
    (s : MState V) : MState V :=
  if ¬ is_valid s.data_size idx then s
  else if s.free_list.length = s.free_list_capacity then
    if grow_ok then
      mex_mpfr_mark_free_body d idx
        { s with free_null := false,
                 free_list_capacity := s.free_list_capacity + DATA_CHUNK_SIZE }
    else { s with free_null := true }
  else mex_mpfr_mark_free_body d idx s

/-- The capacity growth loop of mex_mpfr_allocate:
while (data_size + count) > new_capacity, new_capacity += DATA_CHUNK_SIZE,
starting from the current capacity. -/
def grow_capacity (cap need : Nat) : Nat :=
  if need > cap then grow_capacity (cap + DATA_CHUNK_SIZE) need else cap
termination_by need - cap
decreasing_by simp only [DATA_CHUNK_SIZE]; omega

/-- The first-fit scan of mex_mpfr_allocate: index and value of the first
free-list entry whose length is at least count. -/
def first_fit (count : Nat) : List idx_t → Option (Nat × idx_t)
  | [] => none
  | e :: rest =>
    if count ≤ length e then some (0, e)
    else (first_fit count rest).map (fun p => (p.1 + 1, p.2))

/-- The tail-allocation path of mex_mpfr_allocate: assign
start = data_size + 1, data_size += count, end = data_size, and return
is_valid of the new range. -/
def mex_mpfr_allocate_tail {V : Type} (count : Nat) (s1 : MState V) :
    Option idx_t × MState V :=
  let idx : idx_t :=
    { start := s1.data_size + 1, end_ := s1.data_size + count }
  let s2 : MState V := { s1 with data_size := s1.data_size + count }
  (if is_valid s2.data_size idx then some idx else none, s2)

/-- Source function mex_mpfr_allocate of gmp_mpfr_interface.h.  Fails on
count = 0; otherwise tries first-fit reuse from the free list (carving the
low count slots off a larger entry, or removing an exact fit), and only
then grows the data array if needed; newly created slots up to the new
capacity are initialized to the default value d.  grow_ok models success
of the mxMalloc or mxRealloc call; on failure the C code has already
overwritten the global data pointer with the NULL result, and returns 0.
The returned option is some idx exactly when the C function returns
is_valid (idx) = 1 and writes idx to its output parameter. -/
def mex_mpfr_allocate {V : Type} (grow_ok : Bool) (d : V) (count : Nat)
    (s : MState V) : Option idx_t × MState V :=
  if count = 0 then (none, s)
  else
    match first_fit count s.free_list with
    | some (i, e) =>
      let idx : idx_t := { start := e.start, end_ := e.start + count - 1 }
      let s' : MState V :=
        if count < length e then
          { s with free_list :=
              s.free_list.set i { start := e.start + count, end_ := e.end_ } }
        else
          { s with free_list := s.free_list.eraseIdx i }
      (if is_valid s'.data_size idx then some idx else none, s')
    | none =>
      if s.data_size + count > s.data_capacity then
        let new_capacity := grow_capacity s.data_capacity
                              (s.data_size + count)
        if grow_ok then
          mex_mpfr_allocate_tail count
            { s with
              data_null := false,
              vals := fun n =>
                if s.data_capacity ≤ n ∧ n < new_capacity then d
                else s.vals n,
              data_capacity := new_capacity }
        else (none, { s with data_null := true })
      else mex_mpfr_allocate_tail count s

/-- Kernel state threaded through the matrix kernels: the MPFR data array
(as a flat function from slot offsets) and the double return-status array
ret_ptr (a fresh, disjoint mxArray in the C code, holding small integer
ternary values, modelled as Int). -/
def KState (V : Type) := (Nat → V) × (Nat → Int)

/-- Body of the transpose loop of command 2000 in mex_mpfr_algorithms.c for
one (i, j): ret_ptr[i * ret_stride] = mpfr_set (rop_ptr + j * ropM + i,
op_ptr + i * ropN + j, rnd).  cp models mpfr_set at the ambient rounding
mode, returning the copied value and the ternary. -/
def transpose_cell {V : Type} (cp : V → V × Int) (ret_stride : Nat)
    (rop op ropM ropN : Nat) (σ : KState V) (i j : Nat) : KState V :=
  let t := cp (σ.1 (op + i * ropN + j))
  (write σ.1 (rop + j * ropM + i) t.1, write σ.2 (i * ret_stride) t.2)

/-- The transpose kernel of command 2000 in mex_mpfr_algorithms.c: the two
nested loops for i < ropM (output rows), j < ropN, executed in C order.
rop and op are the 0-based slot offsets of the two ranges (start - 1). -/
def mpfr_transpose {V : Type} (cp : V → V × Int) (ret_stride : Nat)
    (rop op ropM ropN : Nat) (σ : KState V) : KState V :=
  (List.range ropM).foldl
    (fun σ i =>
      (List.range ropN).foldl (fun σ j =>
        transpose_cell cp ret_stride rop op ropM ropN σ i j) σ)
    σ

/-- Body of the matrix-multiply loops of mpfr_apa_mmm (strategies 1 and 2
share it): int ret = 0; for k < K: ret |= mpfr_fma (C + (M*j) + i,
B + k + (K*j), A + i + (M*k), C + (M*j) + i, rnd);
ret_ptr[((M*j) + i) * ret_stride] = ret.  fma models mpfr_fma at the
ambient precision and rounding mode (value of op1*op2+op3 and ternary).
The data array is read live inside the k loop, exactly as the C kernel
dereferences its pointers, so overlapping ranges behave as in C. -/
def mmm_cell {V : Type} (fma : V → V → V → V × Int) (ret_stride : Nat)
    (cC cA cB M K : Nat) (σ : KState V) (i j : Nat) : KState V :=
  let res := (List.range K).foldl
    (fun (pr : (Nat → V) × Int) k =>
      let t := fma (pr.1 (cB + k + K * j)) (pr.1 (cA + i + M * k))
                   (pr.1 (cC + M * j + i))
      (write pr.1 (cC + M * j + i) t.1, Int.lor pr.2 t.2))
    (σ.1, 0)
  (res.1, write σ.2 ((M * j + i) * ret_stride) res.2)

/-- Strategy 1 of mpfr_apa_mmm (plain for-loop ijk): i outer, j inner. -/
def mmm_strategy1 {V : Type} (fma : V → V → V → V × Int) (ret_stride : Nat)
    (cC cA cB M N K : Nat) (σ : KState V) : KState V :=
  (List.range M).foldl
    (fun σ i =>
      (List.range N).foldl (fun σ j =>
        mmm_cell fma ret_stride cC cA cB M K σ i j) σ)
    σ

/-- Strategy 2 of mpfr_apa_mmm (plain for-loop jik): j outer, i inner. -/
def mmm_strategy2 {V : Type} (fma : V → V → V → V × Int) (ret_stride : Nat)
    (cC cA cB M N K : Nat) (σ : KState V) : KState V :=
  (List.range N).foldl
    (fun σ j =>
      (List.range M).foldl (fun σ i =>
        mmm_cell fma ret_stride cC cA cB M K σ i j) σ)
    σ

/-- Source function mpfr_apa_mmm of mex_mpfr_algorithms_mmm.c, restricted
to the sequential strategies 1 and 2 (strategies 3 to 6 are the same loops
under OpenMP pragmas, strategy 7 calls mpfr_apa_dot, whose source is not
part of this repository snapshot, and strategy 8 needs MPLAPACK).  The
returned Bool is the error flag MEX_FCN_ERR raises for an invalid
strategy. -/
def mpfr_apa_mmm {V : Type} (fma : V → V → V → V × Int)
    (cC cA cB : Nat) (M N K : Nat) (ret_stride : Nat) (strategy : Nat)
    (σ : KState V) : KState V × Bool :=
  if strategy = 1 then (mmm_strategy1 fma ret_stride cC cA cB M N K σ, false)
  else if strategy = 2 then
    (mmm_strategy2 fma ret_stride cC cA cB M N K σ, false)
  else (σ, true)

/-- The mtimes dispatcher, case 2001 of mex_mpfr_algorithms in
mex_mpfr_algorithms.c, after successful argument extraction (the extraction
macros do break out of the switch on failure, and extract_idx guarantees
valid ranges; M > 0 is required there because length (C) / M is a division
by zero otherwise).  The three shape checks raise MEX_FCN_ERR, which only
sets the throw_error flag and does NOT break out of the switch case, so the
kernel call below them executes regardless; the returned Bool is the
throw_error flag that makes mexFunction raise after the command body ran.
The ret_ptr array is freshly created with mxCreateNumericMatrix, modelled
as the zero function. -/
def mtimes_dispatch {V : Type} (fma : V → V → V → V × Int)
    (C A B : idx_t) (M : Nat) (strategy : Nat) (ret_stride : Nat)
    (pool : Nat → V) : Bool × (KState V) :=
  let N := length C / M
  let e1 := length C ≠ M * N
  let K := length A / M
  let e2 := length A ≠ M * K
  let e3 := length B ≠ K * N
  let throw_err := e1 ∨ e2 ∨ e3
  let res := mpfr_apa_mmm fma (C.start - 1) (A.start - 1) (B.start - 1)
               M N K ret_stride strategy (pool, fun _ => 0)
  (decide throw_err || res.2, res.1)

/-! Generic lemmas about loops that write each output slot once, reading
only locations no other iteration writes.  Both matrix kernels have this
shape once the inner accumulation loop is folded into a per-cell value. -/

theorem write_apply {V : Type} (p : Nat → V) (i : Nat) (v : V) (n : Nat) :
    write p i v n = if n = i then v else p n := rfl

theorem write_self {V : Type} (p : Nat → V) (i : Nat) :
    write p i (p i) = p := by
  funext n
  rw [write_apply]
  split <;> simp_all

theorem write_write {V : Type} (p : Nat → V) (i : Nat) (v u : V) :
    write (write p i v) i u = write p i u := by
  funext n
  simp only [write_apply]
  split <;> rfl

section CellFold

variable {V : Type} {α : Type}
variable (w w2 : α → Nat) (F : (Nat → V) → α → V) (G : (Nat → V) → α → Int)
variable (Reads : α → Nat → Prop)

/-- One loop iteration: write the cell value F at pool slot w a, and the
cell status G at return slot w2 a, both computed from the pool before the
iteration. -/
def pairStep (σ : KState V) (a : α) : KState V :=
  (write σ.1 (w a) (F σ.1 a), write σ.2 (w2 a) (G σ.1 a))

theorem pairFold_fst (l : List α) (σ : KState V) :
    (l.foldl (pairStep w w2 F G) σ).1 =
      l.foldl (fun p a => write p (w a) (F p a)) σ.1 := by
  induction l generalizing σ with
  | nil => rfl
  | cons a rest ih => exact ih (pairStep w w2 F G σ a)

/-- Main characterization of the pool component: if cells write pairwise
distinct slots, no cell writes a slot another cell reads, and each cell
value depends on the pool only through the cell reads, then every cell
slot holds its value computed from the initial pool, and all other slots
are untouched. -/
theorem poolFold_spec (l : List α) (p0 : Nat → V)
    (hmap : (l.map w).Nodup)
    (hcross : ∀ a ∈ l, ∀ b ∈ l, w b ≠ w a → ∀ n, Reads a n → n ≠ w b)
    (hF : ∀ a ∈ l, ∀ p q : Nat → V,
      (∀ n, Reads a n → p n = q n) → F p a = F q a) :
    ∀ p : Nat → V, (∀ a ∈ l, ∀ n, Reads a n → p n = p0 n) →
      (∀ a ∈ l, l.foldl (fun p a => write p (w a) (F p a)) p (w a) = F p0 a) ∧
      (∀ n, (∀ a ∈ l, n ≠ w a) →
        l.foldl (fun p a => write p (w a) (F p a)) p n = p n) := by
  induction l with
  | nil => intro p _; exact ⟨by simp, by simp⟩
  | cons a rest ih =>
    intro p hagree
    simp only [List.map_cons, List.nodup_cons, List.mem_map] at hmap
    obtain ⟨hwa, hmap'⟩ := hmap
    have hF0 : F p a = F p0 a :=
      hF a (List.mem_cons_self a rest) p p0 (hagree a (List.mem_cons_self a rest))
    have hcross' : ∀ x ∈ rest, ∀ y ∈ rest, w y ≠ w x →
        ∀ n, Reads x n → n ≠ w y := fun x hx y hy =>
      hcross x (List.mem_cons_of_mem a hx) y (List.mem_cons_of_mem a hy)
    have hF' : ∀ x ∈ rest, ∀ pp qq : (Nat → V),
        (∀ n, Reads x n → pp n = qq n) → F pp x = F qq x := fun x hx =>
      hF x (List.mem_cons_of_mem a hx)
    have hagree' : ∀ x ∈ rest, ∀ n, Reads x n →
        write p (w a) (F p a) n = p0 n := by
      intro x hx n hr
      have hne : n ≠ w a := by
        refine hcross x (List.mem_cons_of_mem a hx) a (List.mem_cons_self a rest)
          ?_ n hr
        intro hcontra
        exact hwa (⟨x, hx, hcontra.symm⟩)
      rw [write_apply, if_neg hne]
      exact hagree x (List.mem_cons_of_mem a hx) n hr
    obtain ⟨ih1, ih2⟩ := ih hmap' hcross' hF' (write p (w a) (F p a)) hagree'
    constructor
    · intro x hx
      rcases List.mem_cons.mp hx with rfl | hx'
      · simp only [List.foldl_cons]
        have : ∀ b ∈ rest, w x ≠ w b := by
          intro b hb hcontra
          exact hwa ⟨b, hb, hcontra.symm⟩
        rw [ih2 (w x) this, write_apply, if_pos rfl, hF0]
      · simp only [List.foldl_cons]
        exact ih1 x hx'
    · intro n hn
      simp only [List.foldl_cons]
      rw [ih2 n (fun x hx => hn x (List.mem_cons_of_mem a hx)),
          write_apply, if_neg (hn a (List.mem_cons_self a rest))]

/-- Characterization of the status component: additionally requiring the
status slots to be pairwise distinct, every cell status slot holds the
status computed from the initial pool, and other slots are untouched. -/
theorem pairFold_snd_spec (l : List α) (p0 : Nat → V)
    (hmap : (l.map w).Nodup)
    (hmap2 : (l.map w2).Nodup)
    (hcross : ∀ a ∈ l, ∀ b ∈ l, w b ≠ w a → ∀ n, Reads a n → n ≠ w b)
    (hF : ∀ a ∈ l, ∀ p q : Nat → V,
      (∀ n, Reads a n → p n = q n) → F p a = F q a)
    (hG : ∀ a ∈ l, ∀ p q : Nat → V,
      (∀ n, Reads a n → p n = q n) → G p a = G q a) :
    ∀ σ : KState V, (∀ a ∈ l, ∀ n, Reads a n → σ.1 n = p0 n) →
      (∀ a ∈ l, (l.foldl (pairStep w w2 F G) σ).2 (w2 a) = G p0 a) ∧
      (∀ n, (∀ a ∈ l, n ≠ w2 a) →
        (l.foldl (pairStep w w2 F G) σ).2 n = σ.2 n) := by
  induction l with
  | nil => intro σ _; exact ⟨by simp, by simp⟩
  | cons a rest ih =>
    intro σ hagree
    simp only [List.map_cons, List.nodup_cons, List.mem_map] at hmap hmap2
    obtain ⟨hwa, hmap'⟩ := hmap
    obtain ⟨hwa2, hmap2'⟩ := hmap2
    have hG0 : G σ.1 a = G p0 a :=
      hG a (List.mem_cons_self a rest) σ.1 p0 (hagree a (List.mem_cons_self a rest))
    have hcross' : ∀ x ∈ rest, ∀ y ∈ rest, w y ≠ w x →
        ∀ n, Reads x n → n ≠ w y := fun x hx y hy =>
      hcross x (List.mem_cons_of_mem a hx) y (List.mem_cons_of_mem a hy)
    have hF' : ∀ x ∈ rest, ∀ pp qq : (Nat → V),
        (∀ n, Reads x n → pp n = qq n) → F pp x = F qq x := fun x hx =>
      hF x (List.mem_cons_of_mem a hx)
    have hG' : ∀ x ∈ rest, ∀ pp qq : (Nat → V),
        (∀ n, Reads x n → pp n = qq n) → G pp x = G qq x := fun x hx =>
      hG x (List.mem_cons_of_mem a hx)
    have hagree' : ∀ x ∈ rest, ∀ n, Reads x n →
        (pairStep w w2 F G σ a).1 n = p0 n := by
      intro x hx n hr
      have hne : n ≠ w a := by
        refine hcross x (List.mem_cons_of_mem a hx) a (List.mem_cons_self a rest)
          ?_ n hr
        intro hcontra
        exact hwa (⟨x, hx, hcontra.symm⟩)
      show write σ.1 (w a) (F σ.1 a) n = p0 n
      rw [write_apply, if_neg hne]
      exact hagree x (List.mem_cons_of_mem a hx) n hr
    obtain ⟨ih1, ih2⟩ := ih hmap' hmap2' hcross' hF' hG'
      (pairStep w w2 F G σ a) hagree'
    constructor
    · intro x hx
      rcases List.mem_cons.mp hx with rfl | hx'
      · simp only [List.foldl_cons]
        have hfr : ∀ b ∈ rest, w2 x ≠ w2 b := by
          intro b hb hcontra
          exact hwa2 ⟨b, hb, hcontra.symm⟩
        rw [ih2 (w2 x) hfr]
        show write σ.2 (w2 x) (G σ.1 x) (w2 x) = G p0 x
        rw [write_apply, if_pos rfl, hG0]
      · simp only [List.foldl_cons]
        exact ih1 x hx'
    · intro n hn
      simp only [List.foldl_cons]
      rw [ih2 n (fun x hx => hn x (List.mem_cons_of_mem a hx))]
      show write σ.2 (w2 a) (G σ.1 a) n = σ.2 n
      rw [write_apply, if_neg (hn a (List.mem_cons_self a rest))]

end CellFold

/-- Nested foldl over two index ranges equals a foldl over the flattened
list of index pairs. -/
theorem foldl_nested {A B S : Type} (l1 : List A) (h : A → List B)
    (g : S → A → B → S) (σ : S) :
    l1.foldl (fun σ x => (h x).foldl (fun σ y => g σ x y) σ) σ =
      (l1.flatMap (fun x => (h x).map (fun y => (x, y)))).foldl
        (fun σ c => g σ c.1 c.2) σ := by
  induction l1 generalizing σ with
  | nil => rfl
  | cons x rest ih =>
    simp only [List.foldl_cons, List.flatMap_cons, List.foldl_append,
      List.foldl_map]
    exact ih _

/-- Column-major cell offsets are below the matrix size. -/
theorem cell_offset_lt {M N i j : Nat} (hi : i < M) (hj : j < N) :
    M * j + i < M * N := by
  have h1 : M * j + i < M * (j + 1) := by
    have : M * (j + 1) = M * j + M := by ring
    omega
  have h2 : M * (j + 1) ≤ M * N := Nat.mul_le_mul_left M hj
  omega

/-- Column-major cell offsets determine row and column. -/
theorem cell_offset_inj {M i i' j j' : Nat} (hi : i < M) (hi' : i' < M)
    (h : M * j + i = M * j' + i') : i = i' ∧ j = j' := by
  have h1 : (i + M * j) % M = i % M := Nat.add_mul_mod_self_left i M j
  have h2 : (i' + M * j') % M = i' % M := Nat.add_mul_mod_self_left i' M j'
  have hmod : i = i' := by
    have e : i + M * j = i' + M * j' := by omega
    rw [e, h2] at h1
    rw [Nat.mod_eq_of_lt hi, Nat.mod_eq_of_lt hi'] at h1
    exact h1.symm
  subst hmod
  refine ⟨rfl, ?_⟩
  have hM : 0 < M := Nat.lt_of_le_of_lt (Nat.zero_le i) hi
  have hMj : M * j = M * j' := by omega
  exact Nat.eq_of_mul_eq_mul_left hM hMj

/-- Offsets of two disjoint intervals never coincide. -/
theorem disjoint_offset_ne {b1 b2 l1 l2 o1 o2 : Nat}
    (h : b1 + l1 ≤ b2 ∨ b2 + l2 ≤ b1) (h1 : o1 < l1) (h2 : o2 < l2) :
    b1 + o1 ≠ b2 + o2 := by omega

/-- Value and status of one multiply cell computed against a fixed pool:
the k loop of mpfr_apa_mmm folded into a pure accumulation, reading all
operands from the given pool and starting from the prior C value. -/
def mmm_cell_vs {V : Type} (fma : V → V → V → V × Int) (pool : Nat → V)
    (cC cA cB M K i j : Nat) : V × Int :=
  (List.range K).foldl
    (fun (a : V × Int) k =>
      let t := fma (pool (cB + k + K * j)) (pool (cA + i + M * k)) a.1
      (t.1, Int.lor a.2 t.2))
    (pool (cC + M * j + i), 0)

theorem mmm_cell_inner {V : Type} (fma : V → V → V → V × Int)
    (cC cA cB M K i j : Nat)
    (hB : ∀ k, k < K → cB + k + K * j ≠ cC + M * j + i)
    (hA : ∀ k, k < K → cA + i + M * k ≠ cC + M * j + i) :
    ∀ (ks : List Nat), (∀ k ∈ ks, k < K) →
      ∀ (p : Nat → V) (v : V) (st : Int),
      ks.foldl
        (fun (pr : (Nat → V) × Int) k =>
          let t := fma (pr.1 (cB + k + K * j)) (pr.1 (cA + i + M * k))
                       (pr.1 (cC + M * j + i))
          (write pr.1 (cC + M * j + i) t.1, Int.lor pr.2 t.2))
        (write p (cC + M * j + i) v, st)
      = (write p (cC + M * j + i)
           (ks.foldl (fun (a : V × Int) k =>
              let t := fma (p (cB + k + K * j)) (p (cA + i + M * k)) a.1
              (t.1, Int.lor a.2 t.2)) (v, st)).1,
         (ks.foldl (fun (a : V × Int) k =>
            let t := fma (p (cB + k + K * j)) (p (cA + i + M * k)) a.1
            (t.1, Int.lor a.2 t.2)) (v, st)).2) := by
  intro ks
  induction ks with
  | nil => intro _ p v st; rfl
  | cons k rest ih =>
    intro hks p v st
    have hk : k < K := hks k (List.mem_cons_self k rest)
    simp only [List.foldl_cons]
    have e1 : write p (cC + M * j + i) v (cB + k + K * j) =
        p (cB + k + K * j) := by
      rw [write_apply, if_neg (hB k hk)]
    have e2 : write p (cC + M * j + i) v (cA + i + M * k) =
        p (cA + i + M * k) := by
      rw [write_apply, if_neg (hA k hk)]
    have e3 : write p (cC + M * j + i) v (cC + M * j + i) = v := by
      rw [write_apply, if_pos rfl]
    rw [e1, e2, e3, write_write]
    exact ih (fun k' hk' => hks k' (List.mem_cons_of_mem k hk')) p _ _

/-- The cell body of mpfr_apa_mmm equals a single write of the cell value
and a single write of the cell status, both computed from the pool before
the cell, provided the operand slots the cell reads differ from the slot
it writes. -/
theorem mmm_cell_eq {V : Type} (fma : V → V → V → V × Int) (rs : Nat)
    (cC cA cB M K i j : Nat)
    (hB : ∀ k, k < K → cB + k + K * j ≠ cC + M * j + i)
    (hA : ∀ k, k < K → cA + i + M * k ≠ cC + M * j + i)
    (σ : KState V) :
    mmm_cell fma rs cC cA cB M K σ i j =
      (write σ.1 (cC + M * j + i)
         (mmm_cell_vs fma σ.1 cC cA cB M K i j).1,
       write σ.2 ((M * j + i) * rs)
         (mmm_cell_vs fma σ.1 cC cA cB M K i j).2) := by
  have h0 : (σ.1, (0 : Int)) =
      (write σ.1 (cC + M * j + i) (σ.1 (cC + M * j + i)), (0 : Int)) := by
    rw [write_self]
  rw [mmm_cell, mmm_cell_vs, h0,
    mmm_cell_inner fma cC cA cB M K i j hB hA (List.range K)
      (fun k hk => List.mem_range.mp hk) σ.1 (σ.1 (cC + M * j + i)) 0]

/-- The cell value and status depend on the pool only through the slots the
cell reads. -/
theorem mmm_cell_vs_congr {V : Type} (fma : V → V → V → V × Int)
    (p q : Nat → V) (cC cA cB M K i j : Nat)
    (h0 : p (cC + M * j + i) = q (cC + M * j + i))
    (hB : ∀ k, k < K → p (cB + k + K * j) = q (cB + k + K * j))
    (hA : ∀ k, k < K → p (cA + i + M * k) = q (cA + i + M * k)) :
    mmm_cell_vs fma p cC cA cB M K i j =
      mmm_cell_vs fma q cC cA cB M K i j := by
  rw [mmm_cell_vs, mmm_cell_vs, h0]
  have : ∀ (ks : List Nat), (∀ k ∈ ks, k < K) → ∀ (a : V × Int),
      ks.foldl (fun (a : V × Int) k =>
        let t := fma (p (cB + k + K * j)) (p (cA + i + M * k)) a.1
        (t.1, Int.lor a.2 t.2)) a =
      ks.foldl (fun (a : V × Int) k =>
        let t := fma (q (cB + k + K * j)) (q (cA + i + M * k)) a.1
        (t.1, Int.lor a.2 t.2)) a := by
    intro ks
    induction ks with
    | nil => intro _ a; rfl
    | cons k rest ih =>
      intro hks a
      have hk : k < K := hks k (List.mem_cons_self k rest)
      simp only [List.foldl_cons]
      rw [hB k hk, hA k hk]
      exact ih (fun k' hk' => hks k' (List.mem_cons_of_mem k hk')) _
  exact this (List.range K) (fun k hk => List.mem_range.mp hk) _

/-- Strategy 1 as a flat fold over the cell list in row-major-outer order. -/
theorem mmm_strategy1_eq_cells {V : Type} (fma : V → V → V → V × Int)
    (rs cC cA cB M N K : Nat) (σ : KState V) :
    mmm_strategy1 fma rs cC cA cB M N K σ =
      ((List.range M) ×ˢ (List.range N)).foldl
        (fun σ c => mmm_cell fma rs cC cA cB M K σ c.1 c.2) σ := by
  rw [mmm_strategy1,
    foldl_nested (List.range M) (fun _ => List.range N)
      (fun σ i j => mmm_cell fma rs cC cA cB M K σ i j) σ]
  rfl

/-- Strategy 2 as a flat fold over the cell list in column-major-outer
order (cells carried as (j, i) pairs). -/
theorem mmm_strategy2_eq_cells {V : Type} (fma : V → V → V → V × Int)
    (rs cC cA cB M N K : Nat) (σ : KState V) :
    mmm_strategy2 fma rs cC cA cB M N K σ =
      ((List.range N) ×ˢ (List.range M)).foldl
        (fun σ c => mmm_cell fma rs cC cA cB M K σ c.2 c.1) σ := by
  rw [mmm_strategy2,
    foldl_nested (List.range N) (fun _ => List.range M)
      (fun σ j i => mmm_cell fma rs cC cA cB M K σ i j) σ]
  rfl

/-- The slots one multiply cell (i, j) reads: its own C slot, its row of B
and its column of A. -/
def mmm_reads (cC cA cB M K : Nat) (c : Nat × Nat) (n : Nat) : Prop :=
  n = cC + M * c.2 + c.1 ∨ (∃ k, k < K ∧ n = cB + k + K * c.2) ∨
    (∃ k, k < K ∧ n = cA + c.1 + M * k)

/-- Characterization of a fold of multiply cells over any list of cells
with pairwise different C slots, when the C range is disjoint from the A
and B ranges: each listed C slot receives the value and status computed
from the initial pool, and all other slots keep their initial value.  The
status part additionally needs pairwise different status slots. -/
theorem mmm_cells_fold_spec {V : Type} (fma : V → V → V → V × Int)
    (rs cC cA cB M N K : Nat)
    (hCA : cC + M * N ≤ cA ∨ cA + M * K ≤ cC)
    (hCB : cC + M * N ≤ cB ∨ cB + K * N ≤ cC)
    (l : List (Nat × Nat)) (hl : ∀ c ∈ l, c.1 < M ∧ c.2 < N)
    (hnd : (l.map (fun c => cC + M * c.2 + c.1)).Nodup)
    (hnd2 : (l.map (fun c => (M * c.2 + c.1) * rs)).Nodup)
    (σ : KState V) :
    (∀ c ∈ l,
      (l.foldl (fun σ c => mmm_cell fma rs cC cA cB M K σ c.1 c.2) σ).1
          (cC + M * c.2 + c.1) =
        (mmm_cell_vs fma σ.1 cC cA cB M K c.1 c.2).1) ∧
    (∀ n, (∀ c ∈ l, n ≠ cC + M * c.2 + c.1) →
      (l.foldl (fun σ c => mmm_cell fma rs cC cA cB M K σ c.1 c.2) σ).1 n =
        σ.1 n) ∧
    (∀ c ∈ l,
      (l.foldl (fun σ c => mmm_cell fma rs cC cA cB M K σ c.1 c.2) σ).2
          ((M * c.2 + c.1) * rs) =
        (mmm_cell_vs fma σ.1 cC cA cB M K c.1 c.2).2) ∧
    (∀ n, (∀ c ∈ l, n ≠ (M * c.2 + c.1) * rs) →
      (l.foldl (fun σ c => mmm_cell fma rs cC cA cB M K σ c.1 c.2) σ).2 n =
        σ.2 n) := by
  have hBne : ∀ c ∈ l, ∀ b ∈ l, ∀ k, k < K →
      cB + k + K * c.2 ≠ cC + M * b.2 + b.1 := by
    intro c hc b hb k hk
    obtain ⟨_, hc2⟩ := hl c hc
    obtain ⟨hb1, hb2⟩ := hl b hb
    have h1 : K * c.2 + k < K * N := cell_offset_lt hk hc2
    have h2 : M * b.2 + b.1 < M * N := cell_offset_lt hb1 hb2
    omega
  have hAne : ∀ c ∈ l, ∀ b ∈ l, ∀ k, k < K →
      cA + c.1 + M * k ≠ cC + M * b.2 + b.1 := by
    intro c hc b hb k hk
    obtain ⟨hc1, _⟩ := hl c hc
    obtain ⟨hb1, hb2⟩ := hl b hb
    have h1 : M * k + c.1 < M * K := cell_offset_lt hc1 hk
    have h2 : M * b.2 + b.1 < M * N := cell_offset_lt hb1 hb2
    omega
  have hstep : ∀ (σ : KState V), ∀ c ∈ l,
      mmm_cell fma rs cC cA cB M K σ c.1 c.2 =
        pairStep (fun c : Nat × Nat => cC + M * c.2 + c.1)
          (fun c => (M * c.2 + c.1) * rs)
          (fun p c => (mmm_cell_vs fma p cC cA cB M K c.1 c.2).1)
          (fun p c => (mmm_cell_vs fma p cC cA cB M K c.1 c.2).2) σ c := by
    intro σ c hc
    exact mmm_cell_eq fma rs cC cA cB M K c.1 c.2
      (fun k hk => hBne c hc c hc k hk) (fun k hk => hAne c hc c hc k hk) σ
  have hfold : l.foldl (fun σ c => mmm_cell fma rs cC cA cB M K σ c.1 c.2) σ =
      l.foldl (pairStep (fun c : Nat × Nat => cC + M * c.2 + c.1)
        (fun c => (M * c.2 + c.1) * rs)
        (fun p c => (mmm_cell_vs fma p cC cA cB M K c.1 c.2).1)
        (fun p c => (mmm_cell_vs fma p cC cA cB M K c.1 c.2).2)) σ :=
    List.foldl_ext _ _ σ hstep
  have hcross : ∀ a ∈ l, ∀ b ∈ l,
      (fun c : Nat × Nat => cC + M * c.2 + c.1) b ≠
        (fun c : Nat × Nat => cC + M * c.2 + c.1) a →
      ∀ n, mmm_reads cC cA cB M K a n →
        n ≠ (fun c : Nat × Nat => cC + M * c.2 + c.1) b := by
    intro a ha b hb hne n hr
    rcases hr with h | ⟨k, hk, h⟩ | ⟨k, hk, h⟩
    · subst h; exact fun hcontra => hne (hcontra.symm)
    · subst h; exact hBne a ha b hb k hk
    · subst h; exact hAne a ha b hb k hk
  have hF : ∀ a ∈ l, ∀ p q : Nat → V,
      (∀ n, mmm_reads cC cA cB M K a n → p n = q n) →
      mmm_cell_vs fma p cC cA cB M K a.1 a.2 =
        mmm_cell_vs fma q cC cA cB M K a.1 a.2 := by
    intro a _ p q hpq
    refine mmm_cell_vs_congr fma p q cC cA cB M K a.1 a.2
      (hpq _ (Or.inl rfl))
      (fun k hk => hpq _ (Or.inr (Or.inl ⟨k, hk, rfl⟩)))
      (fun k hk => hpq _ (Or.inr (Or.inr ⟨k, hk, rfl⟩)))
  have hpool := poolFold_spec (fun c : Nat × Nat => cC + M * c.2 + c.1)
    (fun p c => (mmm_cell_vs fma p cC cA cB M K c.1 c.2).1)
    (mmm_reads cC cA cB M K) l σ.1 hnd hcross
    (fun a ha p q hpq => congrArg Prod.fst (hF a ha p q hpq))
    σ.1 (fun _ _ _ _ => rfl)
  have hsnd := pairFold_snd_spec (fun c : Nat × Nat => cC + M * c.2 + c.1)
    (fun c => (M * c.2 + c.1) * rs)
    (fun p c => (mmm_cell_vs fma p cC cA cB M K c.1 c.2).1)
    (fun p c => (mmm_cell_vs fma p cC cA cB M K c.1 c.2).2)
    (mmm_reads cC cA cB M K) l σ.1 hnd hnd2 hcross
    (fun a ha p q hpq => congrArg Prod.fst (hF a ha p q hpq))
    (fun a ha p q hpq => congrArg Prod.snd (hF a ha p q hpq))
    σ (fun _ _ _ _ => rfl)
  refine ⟨?_, ?_, ?_, ?_⟩
  · intro c hc
    rw [hfold, pairFold_fst]
    exact hpool.1 c hc
  · intro n hn
    rw [hfold, pairFold_fst]
    exact hpool.2 n hn
  · intro c hc
    rw [hfold]
    exact hsnd.1 c hc
  · intro n hn
    rw [hfold]
    exact hsnd.2 n hn

/-- The cell list of strategy 1 (row-major-outer order). -/
def cells_rm (M N : Nat) : List (Nat × Nat) :=
  (List.range M) ×ˢ (List.range N)

/-- The cell list of strategy 2 (column-major-outer order), carried as
(i, j) pairs. -/
def cells_cm (M N : Nat) : List (Nat × Nat) :=
  ((List.range N) ×ˢ (List.range M)).map Prod.swap

theorem mem_cells_rm {M N : Nat} {c : Nat × Nat} :
    c ∈ cells_rm M N ↔ c.1 < M ∧ c.2 < N := by
  obtain ⟨i, j⟩ := c
  simp [cells_rm, List.mem_product]

theorem mem_cells_cm {M N : Nat} {c : Nat × Nat} :
    c ∈ cells_cm M N ↔ c.1 < M ∧ c.2 < N := by
  obtain ⟨i, j⟩ := c
  simp only [cells_cm, List.mem_map]
  constructor
  · rintro ⟨⟨j', i'⟩, hmem, heq⟩
    obtain ⟨h1, h2⟩ := List.mem_product.mp hmem
    cases heq
    exact ⟨by simpa using h2, by simpa using h1⟩
  · rintro ⟨h1, h2⟩
    exact ⟨(j, i), List.mem_product.mpr ⟨by simpa using h2, by simpa using h1⟩,
      rfl⟩

theorem cells_rm_nodup (M N : Nat) : (cells_rm M N).Nodup :=
  List.Nodup.product (List.nodup_range M) (List.nodup_range N)

theorem cells_cm_nodup (M N : Nat) : (cells_cm M N).Nodup :=
  List.Nodup.map_on
    (fun x _ y _ h => Prod.ext (congrArg Prod.snd h) (congrArg Prod.fst h))
    (List.Nodup.product (List.nodup_range N) (List.nodup_range M))

theorem cells_w_nodup {M N cC : Nat} (l : List (Nat × Nat))
    (hl : ∀ c ∈ l, c.1 < M ∧ c.2 < N) (hnd : l.Nodup) :
    (l.map (fun c => cC + M * c.2 + c.1)).Nodup := by
  refine List.Nodup.map_on ?_ hnd
  intro x hx y hy h
  obtain ⟨hx1, _⟩ := hl x hx
  obtain ⟨hy1, _⟩ := hl y hy
  have h' : M * x.2 + x.1 = M * y.2 + y.1 := by omega
  obtain ⟨h1, h2⟩ := cell_offset_inj hx1 hy1 h'
  exact Prod.ext h1 h2

theorem cells_w2_nodup {M N : Nat} (l : List (Nat × Nat))
    (hl : ∀ c ∈ l, c.1 < M ∧ c.2 < N) (hnd : l.Nodup) :
    (l.map (fun c => (M * c.2 + c.1) * 1)).Nodup := by
  refine List.Nodup.map_on ?_ hnd
  intro x hx y hy h
  obtain ⟨hx1, _⟩ := hl x hx
  obtain ⟨hy1, _⟩ := hl y hy
  have h' : M * x.2 + x.1 = M * y.2 + y.1 := by omega
  obtain ⟨h1, h2⟩ := cell_offset_inj hx1 hy1 h'
  exact Prod.ext h1 h2

/-- Strategy 2 as a fold over its cell list carried as (i, j) pairs. -/
theorem mmm_strategy2_eq_cells_cm {V : Type} (fma : V → V → V → V × Int)
    (rs cC cA cB M N K : Nat) (σ : KState V) :
    mmm_strategy2 fma rs cC cA cB M N K σ =
      (cells_cm M N).foldl
        (fun σ c => mmm_cell fma rs cC cA cB M K σ c.1 c.2) σ := by
  rw [mmm_strategy2_eq_cells, cells_cm, List.foldl_map]
  rfl

/-- Pure fused-multiply-add accumulation of the K products of row i of A
and column j of B into an initial value, all operands read from a fixed
pool.  With init the prior C value this is what one multiply cell stores;
with init a zero value it is the specification notion of the matrix
product entry. -/
def spec_fma_accumulate {V : Type} (fma : V → V → V → V × Int)
    (pool : Nat → V) (init : V) (cA cB M K i j : Nat) : V :=
  (List.range K).foldl
    (fun acc k =>
      (fma (pool (cB + k + K * j)) (pool (cA + i + M * k)) acc).1)
    init

/-- The specification-side matrix product entry of claim C2: accumulate
the K products A[i,k]*B[k,j] starting from zero, each accumulation step a
single fused multiply-add.  Follows the wording of the specification, for
comparison against the kernel embedded from the source. -/
def spec_matrix_product_entry {V : Type} (fma : V → V → V → V × Int)
    (zero : V) (pool : Nat → V) (cA cB M K i j : Nat) : V :=
  spec_fma_accumulate fma pool zero cA cB M K i j

theorem mmm_cell_vs_fst_eq {V : Type} (fma : V → V → V → V × Int)
    (pool : Nat → V) (cC cA cB M K i j : Nat) :
    (mmm_cell_vs fma pool cC cA cB M K i j).1 =
      spec_fma_accumulate fma pool (pool (cC + M * j + i)) cA cB M K i j := by
  rw [mmm_cell_vs, spec_fma_accumulate]
  have : ∀ (ks : List Nat) (a : V × Int),
      (ks.foldl (fun (a : V × Int) k =>
        let t := fma (pool (cB + k + K * j)) (pool (cA + i + M * k)) a.1
        (t.1, Int.lor a.2 t.2)) a).1 =
      ks.foldl (fun acc k =>
        (fma (pool (cB + k + K * j)) (pool (cA + i + M * k)) acc).1) a.1 := by
    intro ks
    induction ks with
    | nil => intro a; rfl
    | cons k rest ih => intro a; simp only [List.foldl_cons]; exact ih _
  exact this (List.range K) _

/-- When the output range C is disjoint from both operand ranges, the two
sequential strategies of mpfr_apa_mmm produce the same final state (values
and per-element statuses, ret_stride 1). -/
theorem mmm_strategies_agree {V : Type} (fma : V → V → V → V × Int)
    (cC cA cB M N K : Nat)
    (hCA : cC + M * N ≤ cA ∨ cA + M * K ≤ cC)
    (hCB : cC + M * N ≤ cB ∨ cB + K * N ≤ cC)
    (σ : KState V) :
    mmm_strategy1 fma 1 cC cA cB M N K σ =
      mmm_strategy2 fma 1 cC cA cB M N K σ := by
  have hl1 : ∀ c ∈ cells_rm M N, c.1 < M ∧ c.2 < N :=
    fun c hc => mem_cells_rm.mp hc
  have hl2 : ∀ c ∈ cells_cm M N, c.1 < M ∧ c.2 < N :=
    fun c hc => mem_cells_cm.mp hc
  have s1 := mmm_cells_fold_spec fma 1 cC cA cB M N K hCA hCB
    (cells_rm M N) hl1 (cells_w_nodup _ hl1 (cells_rm_nodup M N))
    (cells_w2_nodup _ hl1 (cells_rm_nodup M N)) σ
  have s2 := mmm_cells_fold_spec fma 1 cC cA cB M N K hCA hCB
    (cells_cm M N) hl2 (cells_w_nodup _ hl2 (cells_cm_nodup M N))
    (cells_w2_nodup _ hl2 (cells_cm_nodup M N)) σ
  have e1 : mmm_strategy1 fma 1 cC cA cB M N K σ =
      (cells_rm M N).foldl
        (fun σ c => mmm_cell fma 1 cC cA cB M K σ c.1 c.2) σ :=
    mmm_strategy1_eq_cells fma 1 cC cA cB M N K σ
  have e2 : mmm_strategy2 fma 1 cC cA cB M N K σ =
      (cells_cm M N).foldl
        (fun σ c => mmm_cell fma 1 cC cA cB M K σ c.1 c.2) σ :=
    mmm_strategy2_eq_cells_cm fma 1 cC cA cB M N K σ
  rw [e1, e2]
  refine Prod.ext ?_ ?_
  · funext n
    by_cases hex : ∃ c : Nat × Nat, c.1 < M ∧ c.2 < N ∧
        n = cC + M * c.2 + c.1
    · obtain ⟨c, h1, h2, rfl⟩ := hex
      rw [s1.1 c (mem_cells_rm.mpr ⟨h1, h2⟩),
        s2.1 c (mem_cells_cm.mpr ⟨h1, h2⟩)]
    · push_neg at hex
      rw [s1.2.1 n (fun c hc => hex c (hl1 c hc).1 (hl1 c hc).2),
        s2.2.1 n (fun c hc => hex c (hl2 c hc).1 (hl2 c hc).2)]
  · funext n
    by_cases hex : ∃ c : Nat × Nat, c.1 < M ∧ c.2 < N ∧
        n = (M * c.2 + c.1) * 1
    · obtain ⟨c, h1, h2, rfl⟩ := hex
      rw [s1.2.2.1 c (mem_cells_rm.mpr ⟨h1, h2⟩),
        s2.2.2.1 c (mem_cells_cm.mpr ⟨h1, h2⟩)]
    · push_neg at hex
      rw [s1.2.2.2 n (fun c hc => hex c (hl1 c hc).1 (hl1 c hc).2),
        s2.2.2.2 n (fun c hc => hex c (hl2 c hc).1 (hl2 c hc).2)]

/-- The slot one transpose cell (i, j) reads. -/
def transpose_reads (op ropN : Nat) (c : Nat × Nat) (n : Nat) : Prop :=
  n = op + c.1 * ropN + c.2

/-- Characterization of the transpose kernel when the two ranges are
disjoint: output slot (i, j) receives the copy of input slot (j, i), all
other slots keep their value. -/
theorem mpfr_transpose_spec {V : Type} (cp : V → V × Int)
    (rs rop op ropM ropN : Nat)
    (hdisj : rop + ropM * ropN ≤ op ∨ op + ropM * ropN ≤ rop)
    (σ : KState V) :
    (∀ i j, i < ropM → j < ropN →
      (mpfr_transpose cp rs rop op ropM ropN σ).1 (rop + j * ropM + i) =
        (cp (σ.1 (op + i * ropN + j))).1) ∧
    (∀ n, (∀ i j, i < ropM → j < ropN → n ≠ rop + j * ropM + i) →
      (mpfr_transpose cp rs rop op ropM ropN σ).1 n = σ.1 n) := by
  have hl : ∀ c ∈ cells_rm ropM ropN, c.1 < ropM ∧ c.2 < ropN :=
    fun c hc => mem_cells_rm.mp hc
  have hwb : ∀ c : Nat × Nat, c.1 < ropM → c.2 < ropN →
      c.2 * ropM + c.1 < ropM * ropN := by
    intro c h1 h2
    have h := cell_offset_lt h1 h2
    rw [Nat.mul_comm ropM c.2] at h
    exact h
  have hrb : ∀ c : Nat × Nat, c.1 < ropM → c.2 < ropN →
      c.1 * ropN + c.2 < ropM * ropN := by
    intro c h1 h2
    have h := cell_offset_lt h2 h1
    rw [Nat.mul_comm ropN c.1, Nat.mul_comm ropN ropM] at h
    exact h
  have hnd : ((cells_rm ropM ropN).map
      (fun c => rop + c.2 * ropM + c.1)).Nodup := by
    refine List.Nodup.map_on ?_ (cells_rm_nodup ropM ropN)
    intro x hx y hy h
    obtain ⟨hx1, _⟩ := hl x hx
    obtain ⟨hy1, _⟩ := hl y hy
    have h' : ropM * x.2 + x.1 = ropM * y.2 + y.1 := by
      rw [Nat.mul_comm ropM x.2, Nat.mul_comm ropM y.2]
      omega
    obtain ⟨e1, e2⟩ := cell_offset_inj hx1 hy1 h'
    exact Prod.ext e1 e2
  have hcross : ∀ a ∈ cells_rm ropM ropN, ∀ b ∈ cells_rm ropM ropN,
      (fun c : Nat × Nat => rop + c.2 * ropM + c.1) b ≠
        (fun c : Nat × Nat => rop + c.2 * ropM + c.1) a →
      ∀ n, transpose_reads op ropN a n →
        n ≠ (fun c : Nat × Nat => rop + c.2 * ropM + c.1) b := by
    intro a ha b hb _ n hr
    obtain ⟨ha1, ha2⟩ := hl a ha
    obtain ⟨hb1, hb2⟩ := hl b hb
    rw [hr]
    show op + a.1 * ropN + a.2 ≠ rop + b.2 * ropM + b.1
    have h1 := hrb a ha1 ha2
    have h2 := hwb b hb1 hb2
    omega
  have hstep : ∀ (σ : KState V), ∀ c ∈ cells_rm ropM ropN,
      transpose_cell cp rs rop op ropM ropN σ c.1 c.2 =
        pairStep (fun c : Nat × Nat => rop + c.2 * ropM + c.1)
          (fun c => c.1 * rs)
          (fun p c => (cp (p (op + c.1 * ropN + c.2))).1)
          (fun p c => (cp (p (op + c.1 * ropN + c.2))).2) σ c := by
    intro σ c _
    rfl
  have e0 : mpfr_transpose cp rs rop op ropM ropN σ =
      (cells_rm ropM ropN).foldl
        (fun σ c => transpose_cell cp rs rop op ropM ropN σ c.1 c.2) σ := by
    rw [mpfr_transpose,
      foldl_nested (List.range ropM) (fun _ => List.range ropN)
        (fun σ i j => transpose_cell cp rs rop op ropM ropN σ i j) σ]
    rfl
  have hfold : (cells_rm ropM ropN).foldl
      (fun σ c => transpose_cell cp rs rop op ropM ropN σ c.1 c.2) σ =
      (cells_rm ropM ropN).foldl
        (pairStep (fun c : Nat × Nat => rop + c.2 * ropM + c.1)
          (fun c => c.1 * rs)
          (fun p c => (cp (p (op + c.1 * ropN + c.2))).1)
          (fun p c => (cp (p (op + c.1 * ropN + c.2))).2)) σ :=
    List.foldl_ext _ _ σ hstep
  have hpool := poolFold_spec
    (fun c : Nat × Nat => rop + c.2 * ropM + c.1)
    (fun p c => (cp (p (op + c.1 * ropN + c.2))).1)
    (transpose_reads op ropN) (cells_rm ropM ropN) σ.1 hnd hcross
    (fun a _ p q hpq => by
      show (cp (p (op + a.1 * ropN + a.2))).1 =
        (cp (q (op + a.1 * ropN + a.2))).1
      rw [hpq _ rfl])
    σ.1 (fun _ _ _ _ => rfl)
  constructor
  · intro i j hi hj
    have := hpool.1 (i, j) (mem_cells_rm.mpr ⟨hi, hj⟩)
    rw [e0, hfold, pairFold_fst]
    exact this
  · intro n hn
    rw [e0, hfold, pairFold_fst]
    exact hpool.2 n (fun c hc => hn c.1 c.2 (hl c hc).1 (hl c hc).2)

/-- Transposing twice with swapped row counts through an intermediate
range reproduces the original values when the copy is exact. -/
theorem transpose_roundtrip {V : Type} (cp : V → V × Int)
    (rs1 rs2 o t u M N : Nat)
    (hcp : ∀ v, (cp v).1 = v) (hM : 0 < M)
    (hot : t + N * M ≤ o ∨ o + N * M ≤ t)
    (htu : u + M * N ≤ t ∨ t + M * N ≤ u)
    (σ : KState V) :
    ∀ n, n < M * N →
      (mpfr_transpose cp rs2 u t M N
        (mpfr_transpose cp rs1 t o N M σ)).1 (u + n) = σ.1 (o + n) := by
  intro n hn
  have spec1 := mpfr_transpose_spec cp rs1 t o N M hot σ
  have spec2 := mpfr_transpose_spec cp rs2 u t M N htu
    (mpfr_transpose cp rs1 t o N M σ)
  obtain ⟨i, j, hi, hj, hnd⟩ : ∃ i j, i < M ∧ j < N ∧ n = M * j + i :=
    ⟨n % M, n / M, Nat.mod_lt n hM,
      by rw [Nat.div_lt_iff_lt_mul hM, Nat.mul_comm N M]; exact hn,
      (Nat.div_add_mod n M).symm⟩
  have hslot : u + n = u + j * M + i := by
    have hcomm : j * M = M * j := Nat.mul_comm j M
    omega
  rw [hslot]
  rw [(spec2.1 i j hi hj : _)]
  rw [(spec1.1 j i hj hi : _)]
  rw [hcp, hcp]
  have harg : o + j * M + i = o + n := by
    have hcomm : j * M = M * j := Nat.mul_comm j M
    omega
  exact congrArg σ.1 harg

/-! The argument extraction chain of gmp_mpfr_interface.h (extract_d,
extract_si, extract_ui, extract_prec). -/

/-- Minimal model of a MEX input argument as the extraction chain inspects
it: the mxIsScalar and mxIsNumeric predicates and the mxGetScalar double
value, where a non-finite double (NaN or infinity) is modelled as none and
a finite double as its exact rational value. -/
structure mxArray where
  is_scalar : Bool
  is_numeric : Bool
  scalar : Option ℚ

/-- Source function extract_d: succeeds when the argument exists (nrhs >
idx) and is a numeric scalar; yields the double (finite or not). -/
def extract_d (idx : Nat) (prhs : List mxArray) : Option (Option ℚ) :=
  match prhs[idx]? with
  | some a => if a.is_scalar && a.is_numeric then some a.scalar else none
  | none => none

/-- Source function extract_si: extract_d plus mxIsFinite (d) and
floor (d) == d; yields the signed integer. -/
def extract_si (idx : Nat) (prhs : List mxArray) : Option Int :=
  match extract_d idx prhs with
  | some (some d) => if (⌊d⌋ : ℚ) = d then some ⌊d⌋ else none
  | _ => none

/-- Source function extract_ui: extract_si plus si >= 0. -/
def extract_ui (idx : Nat) (prhs : List mxArray) : Option Nat :=
  match extract_si idx prhs with
  | some si => if 0 ≤ si then some si.toNat else none
  | none => none

/-- Source function extract_prec: extract_ui plus the two strict bounds
MPFR_PREC_MIN < ui and ui < MPFR_PREC_MAX (the bounds are constants of the
external MPFR library, passed here as parameters). -/
def extract_prec (PREC_MIN PREC_MAX : Nat) (idx : Nat)
    (prhs : List mxArray) : Option Nat :=
  match extract_ui idx prhs with
  | some ui =>
    if PREC_MIN < ui ∧ ui < PREC_MAX then some ui else none
  | none => none

/-- extract_ui succeeds with p exactly when the argument is a numeric
scalar holding a finite integral non-negative double of value p. -/
theorem extract_ui_iff (idx : Nat) (prhs : List mxArray) (p : Nat) :
    extract_ui idx prhs = some p ↔
      ∃ a : mxArray, prhs[idx]? = some a ∧ a.is_scalar = true ∧
        a.is_numeric = true ∧ a.scalar = some (p : ℚ) := by
  constructor
  · intro h
    rw [extract_ui] at h
    cases hsi : extract_si idx prhs with
    | none => rw [hsi] at h; cases h
    | some si =>
      rw [hsi] at h
      by_cases hpos : 0 ≤ si
      · simp only [hpos, if_pos] at h
        cases h
        rw [extract_si] at hsi
        cases hd : extract_d idx prhs with
        | none => rw [hd] at hsi; cases hsi
        | some od =>
          cases od with
          | none => rw [hd] at hsi; cases hsi
          | some d =>
            rw [hd] at hsi
            by_cases hfl : (⌊d⌋ : ℚ) = d
            · simp only [hfl, if_pos] at hsi
              cases hsi
              rw [extract_d] at hd
              cases ha : prhs[idx]? with
              | none => rw [ha] at hd; cases hd
              | some a =>
                rw [ha] at hd
                by_cases hsn : a.is_scalar && a.is_numeric
                · simp only [hsn, if_pos, Option.some.injEq] at hd
                  obtain ⟨hsc, hnum⟩ : a.is_scalar = true ∧
                      a.is_numeric = true := by simpa using hsn
                  refine ⟨a, rfl, hsc, hnum, ?_⟩
                  obtain ⟨z, hz⟩ : ∃ z : Int, z = ⌊d⌋ := ⟨⌊d⌋, rfl⟩
                  rw [← hz] at hfl hpos ⊢
                  rw [hd, ← hfl]
                  congr 1
                  exact_mod_cast (Int.toNat_of_nonneg hpos).symm
                · simp only [hsn, if_neg] at hd; cases hd
            · simp only [hfl, if_neg] at hsi; cases hsi
      · simp only [hpos, if_neg] at h; cases h
  · rintro ⟨a, ha, hs, hn, hv⟩
    rw [extract_ui, extract_si, extract_d, ha]
    simp only [hs, hn, Bool.and_self, if_true, hv]
    have hfl : (⌊(p : ℚ)⌋ : ℚ) = (p : ℚ) := by
      rw [Int.floor_natCast]
      simp
    rw [if_pos hfl]
    simp [Int.floor_natCast]

/-- free_list_remove_loop, applied at a slot of the final array:
slots before i and from the old live size on keep their value, slots from
i to size - 1 receive the next entry (so the last live slot receives the
entry one past the live region). -/
theorem free_list_remove_loop_apply :
    ∀ (f : Nat → idx_t) (size i : Nat) (m : Nat),
      free_list_remove_loop f size i m =
        if i ≤ m ∧ m < size then f (m + 1) else f m := by
  intro f size i
  induction f, size, i using free_list_remove_loop.induct with
  | case1 f size i hlt ih =>
    intro m
    rw [free_list_remove_loop, if_pos hlt]
    rw [ih m]
    by_cases h1 : i + 1 ≤ m ∧ m < size
    · rw [if_pos h1, if_pos ⟨by omega, h1.2⟩, write_apply,
        if_neg (by omega : ¬ m + 1 = i)]
    · rw [if_neg h1]
      by_cases h2 : m = i
      · subst h2
        rw [write_apply, if_pos rfl, if_pos ⟨Nat.le_refl _, hlt⟩]
      · rw [write_apply, if_neg h2, if_neg (by omega : ¬ (i ≤ m ∧ m < size))]
  | case2 f size i hge =>
    intro m
    rw [free_list_remove_loop, if_neg hge]
    rw [if_neg (by omega : ¬ (i ≤ m ∧ m < size))]

/-! Free-list invariants and their preservation. -/

/-- A free-list entry is a well formed sub-range of the pool:
1 <= start <= end <= data_size. -/
def entry_ok (ds : Nat) (e : idx_t) : Prop :=
  1 ≤ e.start ∧ e.start ≤ e.end_ ∧ e.end_ ≤ ds

/-- Two ranges do not overlap. -/
def idx_disjoint (a b : idx_t) : Prop :=
  a.end_ < b.start ∨ b.end_ < a.start

/-- The core free-list invariant: all entries are well formed sub-ranges
of [1, data_size] and pairwise non-overlapping. -/
def FLInv {V : Type} (s : MState V) : Prop :=
  (∀ e ∈ s.free_list, entry_ok s.data_size e) ∧
    s.free_list.Pairwise idx_disjoint

/-- The after-compaction conditions: no two entries adjacent and no entry
ending at the data size. -/
def FLCompressed {V : Type} (s : MState V) : Prop :=
  s.free_list.Pairwise (fun a b => adj a b = false) ∧
    ∀ e ∈ s.free_list, e.end_ ≠ s.data_size

theorem is_valid_iff_entry_ok (ds : Nat) (e : idx_t) :
    is_valid ds e = true ↔ entry_ok ds e := by
  simp [is_valid, entry_ok, and_assoc]

theorem adj_iff (a b : idx_t) :
    adj a b = true ↔ a.end_ + 1 = b.start ∨ b.end_ + 1 = a.start := by
  simp [adj]

theorem adj_false_iff (a b : idx_t) :
    adj a b = false ↔ a.end_ + 1 ≠ b.start ∧ b.end_ + 1 ≠ a.start := by
  simp [adj, not_or]

theorem scan_adj_none_of (e : idx_t) :
    ∀ (l : List idx_t) (j : Nat), (∀ f ∈ l, adj e f = false) →
      scan_adj e l j = none := by
  intro l
  induction l with
  | nil => intro j _; rfl
  | cons f rest ih =>
    intro j h
    rw [scan_adj, h f (List.mem_cons_self f rest)]
    simp only [Bool.false_eq_true, if_false]
    exact ih (j + 1) (fun g hg => h g (List.mem_cons_of_mem f hg))

theorem scan_adj_none_imp (e : idx_t) :
    ∀ (l : List idx_t) (j : Nat), scan_adj e l j = none →
      ∀ f ∈ l, adj e f = false := by
  intro l
  induction l with
  | nil => intro j _ f hf; cases hf
  | cons f rest ih =>
    intro j h g hg
    rw [scan_adj] at h
    by_cases hadj : adj e f
    · rw [if_pos hadj] at h; cases h
    · rcases List.mem_cons.mp hg with rfl | hg'
      · exact Bool.eq_false_iff.mpr hadj
      · rw [if_neg hadj] at h
        exact ih (j + 1) h g hg'

theorem scan_rule_none_of (ds : Nat) :
    ∀ (l : List idx_t) (i : Nat), (∀ e ∈ l, e.end_ ≠ ds) →
      l.Pairwise (fun a b => adj a b = false) → scan_rule ds l i = none := by
  intro l
  induction l with
  | nil => intro i _ _; rfl
  | cons e rest ih =>
    intro i hend hpw
    rw [scan_rule, if_neg (hend e (List.mem_cons_self e rest)),
      scan_adj_none_of e rest (i + 1) (List.pairwise_cons.mp hpw).1]
    exact ih (i + 1) (fun f hf => hend f (List.mem_cons_of_mem e hf))
      (List.pairwise_cons.mp hpw).2

theorem scan_rule_none_imp (ds : Nat) :
    ∀ (l : List idx_t) (i : Nat), scan_rule ds l i = none →
      (∀ e ∈ l, e.end_ ≠ ds) ∧ l.Pairwise (fun a b => adj a b = false) := by
  intro l
  induction l with
  | nil => intro i _; exact ⟨fun e he => absurd he (List.not_mem_nil e), by simp⟩
  | cons e rest ih =>
    intro i h
    rw [scan_rule] at h
    by_cases hend : e.end_ = ds
    · rw [if_pos hend] at h; cases h
    · rw [if_neg hend] at h
      cases hsa : scan_adj e rest (i + 1) with
      | some j => rw [hsa] at h; cases h
      | none =>
        rw [hsa] at h
        obtain ⟨h1, h2⟩ := ih (i + 1) h
        refine ⟨?_, ?_⟩
        · intro f hf
          rcases List.mem_cons.mp hf with rfl | hf'
          · exact hend
          · exact h1 f hf'
        · exact List.pairwise_cons.mpr ⟨scan_adj_none_imp e rest (i + 1) hsa, h2⟩

theorem merge_idx_ok {ds : Nat} {e f : idx_t} (he : entry_ok ds e)
    (hf : entry_ok ds f) : entry_ok ds (merge_idx e f) := by
  obtain ⟨he1, he2, he3⟩ := he
  obtain ⟨hf1, hf2, hf3⟩ := hf
  simp only [merge_idx, entry_ok]
  split_ifs <;> omega

theorem merge_idx_disjoint {e f g : idx_t} (hadj : adj e f = true)
    (he : e.start ≤ e.end_) (hf : f.start ≤ f.end_) (hg : g.start ≤ g.end_)
    (h1 : idx_disjoint e g) (h2 : idx_disjoint f g) :
    idx_disjoint (merge_idx e f) g := by
  rw [adj_iff] at hadj
  simp only [idx_disjoint, merge_idx] at *
  split_ifs <;> omega

/-- idx_disjoint is symmetric. -/
theorem idx_disjoint_symm {a b : idx_t} (h : idx_disjoint a b) :
    idx_disjoint b a := Or.symm h

/-- Applying a scan action preserves well-formedness and disjointness of
the free list. -/
theorem apply_act_inv {V : Type} (s : MState V) (a : CompressAct)
    (hok : ∀ e ∈ s.free_list, entry_ok s.data_size e)
    (hdis : s.free_list.Pairwise idx_disjoint)
    (ha : scan_rule s.data_size s.free_list 0 = some a) :
    (∀ e ∈ (apply_act s a).free_list,
      entry_ok (apply_act s a).data_size e) ∧
      (apply_act s a).free_list.Pairwise idx_disjoint := by
  have hpw := List.pairwise_iff_getElem.mp hdis
  cases a with
  | rule1 k =>
    obtain ⟨-, hk0, hkend0⟩ :=
      scan_rule_spec_rule1 s.data_size s.free_list 0 k ha
    have hk : k < s.free_list.length := by omega
    have hkend : s.free_list[k].end_ = s.data_size := by
      simpa using hkend0
    simp only [apply_act, List.getElem?_eq_getElem hk]
    constructor
    · intro e he
      obtain ⟨q, hq, hqe⟩ := List.mem_iff_getElem.mp he
      rw [List.getElem_eraseIdx] at hqe
      have hlen : (s.free_list.eraseIdx k).length = s.free_list.length - 1 := by
        simp [List.length_eraseIdx, hk]
      rw [hlen] at hq
      by_cases hqk : q < k
      · rw [dif_pos hqk] at hqe
        have hdq : idx_disjoint s.free_list[q] s.free_list[k] :=
          hpw q k (by omega) hk hqk
        obtain ⟨h1, h2, h3⟩ := hok s.free_list[q] (List.getElem_mem _)
        obtain ⟨g1, g2, g3⟩ := hok s.free_list[k] (List.getElem_mem _)
        rw [← hqe]
        rcases hdq with hd | hd
        · exact ⟨h1, h2, by omega⟩
        · exact absurd hd (by omega)
      · rw [dif_neg hqk] at hqe
        have hq1 : q + 1 < s.free_list.length := by omega
        have hne : q + 1 ≠ k := by omega
        have hdq : idx_disjoint s.free_list[k] s.free_list[q + 1] :=
          hpw k (q + 1) hk hq1 (by omega)
        obtain ⟨h1, h2, h3⟩ := hok s.free_list[q + 1] (List.getElem_mem _)
        obtain ⟨g1, g2, g3⟩ := hok s.free_list[k] (List.getElem_mem _)
        rw [← hqe]
        rcases hdq with hd | hd
        · exact absurd hd (by omega)
        · exact ⟨h1, h2, by omega⟩
    · exact List.Pairwise.sublist (List.eraseIdx_sublist _ k) hdis
  | rule2 k j =>
    obtain ⟨-, hkj, hk0, hj0, hadj0⟩ :=
      scan_rule_spec_rule2 s.data_size s.free_list 0 k j ha
    have hj : j < s.free_list.length := by omega
    have hadj : adj s.free_list[k] s.free_list[j] = true := by
      simpa using hadj0
    have hk' : k < s.free_list.length := Nat.lt_trans hkj hj
    simp only [apply_act, List.getElem?_eq_getElem hk',
      List.getElem?_eq_getElem hj]
    have hoke := hok s.free_list[k] (List.getElem_mem _)
    have hokf := hok s.free_list[j] (List.getElem_mem _)
    have hlen : ((s.free_list.set k
        (merge_idx s.free_list[k] s.free_list[j])).eraseIdx j).length =
        s.free_list.length - 1 := by
      simp [List.length_eraseIdx, List.length_set, hj]
    have hget : ∀ q, q < s.free_list.length - 1 →
        ∃ p, ∃ hp : p < s.free_list.length, p ≠ j ∧
          (q < j → p = q) ∧ (¬ q < j → p = q + 1) ∧
          ((s.free_list.set k
            (merge_idx s.free_list[k] s.free_list[j])).eraseIdx j)[q]? =
            some (if k = p then merge_idx s.free_list[k] s.free_list[j]
              else s.free_list[p]) := by
      intro q hq
      have hq' : q < ((s.free_list.set k
          (merge_idx s.free_list[k] s.free_list[j])).eraseIdx j).length := by
        omega
      by_cases hqj : q < j
      · refine ⟨q, by omega, by omega, fun _ => rfl,
          fun h => absurd hqj h, ?_⟩
        rw [List.getElem?_eq_getElem hq', List.getElem_eraseIdx, dif_pos hqj,
          List.getElem_set]
      · refine ⟨q + 1, by omega, by omega, fun h => absurd h hqj,
          fun _ => rfl, ?_⟩
        rw [List.getElem?_eq_getElem hq', List.getElem_eraseIdx, dif_neg hqj,
          List.getElem_set]
    have hmdis : ∀ p (hp : p < s.free_list.length), p ≠ k → p ≠ j →
        idx_disjoint (merge_idx s.free_list[k] s.free_list[j])
          s.free_list[p] := by
      intro p hp hpk hpj
      have hokg := hok s.free_list[p] (List.getElem_mem _)
      have hd1 : idx_disjoint s.free_list[k] s.free_list[p] := by
        rcases Nat.lt_or_ge k p with h | h
        · exact hpw k p hk' hp h
        · exact idx_disjoint_symm (hpw p k hp hk' (by omega))
      have hd2 : idx_disjoint s.free_list[j] s.free_list[p] := by
        rcases Nat.lt_or_ge j p with h | h
        · exact hpw j p hj hp h
        · exact idx_disjoint_symm (hpw p j hp hj (by omega))
      exact merge_idx_disjoint hadj hoke.2.1 hokf.2.1 hokg.2.1 hd1 hd2
    have hval : ∀ q (hq2 : q < ((s.free_list.set k
          (merge_idx s.free_list[k] s.free_list[j])).eraseIdx j).length),
        ∃ p, ∃ hp : p < s.free_list.length, p ≠ j ∧
          (q < j → p = q) ∧ (¬ q < j → p = q + 1) ∧
          ((s.free_list.set k
            (merge_idx s.free_list[k] s.free_list[j])).eraseIdx j)[q] =
            (if k = p then merge_idx s.free_list[k] s.free_list[j]
              else s.free_list[p]) := by
      intro q hq2
      have hql : q < s.free_list.length - 1 := by omega
      obtain ⟨p, hp, h1, h2, h3, h4⟩ := hget q hql
      rw [List.getElem?_eq_getElem hq2] at h4
      exact ⟨p, hp, h1, h2, h3, Option.some.inj h4⟩
    constructor
    · intro e he
      obtain ⟨q, hq, hqe⟩ := List.mem_iff_getElem.mp he
      obtain ⟨p, hp, hpj, -, -, hv⟩ := hval q hq
      rw [hv] at hqe
      rw [← hqe]
      split
      · exact merge_idx_ok hoke hokf
      · exact hok _ (List.getElem_mem _)
    · rw [List.pairwise_iff_getElem]
      intro q1 q2 hq1 hq2 h12
      obtain ⟨p1, hp1, hp1j, hp1a, hp1b, hv1⟩ := hval q1 hq1
      obtain ⟨p2, hp2, hp2j, hp2a, hp2b, hv2⟩ := hval q2 hq2
      have hplt : p1 < p2 := by
        by_cases c1 : q1 < j <;> by_cases c2 : q2 < j
        · have := hp1a c1; have := hp2a c2; omega
        · have := hp1a c1; have := hp2b c2; omega
        · exact absurd (Nat.lt_trans h12 c2) c1
        · have := hp1b c1; have := hp2b c2; omega
      rw [hv1, hv2]
      split
      · split
        · omega
        · next hne =>
          exact hmdis p2 hp2 (fun h => hne h.symm) hp2j
      · next h1ne =>
        split
        · next h2e =>
          exact idx_disjoint_symm (hmdis p1 hp1 (fun h => h1ne h.symm) hp1j)
        · exact hpw p1 p2 hp1 hp2 hplt

/-- apply_act changes only the free list and the data size. -/
theorem apply_act_fields {V : Type} (s : MState V) (a : CompressAct) :
    (apply_act s a).data_capacity = s.data_capacity ∧
    (apply_act s a).vals = s.vals ∧
    (apply_act s a).data_null = s.data_null ∧
    (apply_act s a).free_null = s.free_null ∧
    (apply_act s a).free_list_capacity = s.free_list_capacity := by
  cases a with
  | rule1 i =>
    simp only [apply_act]
    cases s.free_list[i]? <;> simp
  | rule2 i j =>
    simp only [apply_act]
    cases s.free_list[i]? <;> cases s.free_list[j]? <;> simp

/-- The compression loop changes only the free list and the data size. -/
theorem free_list_compress_loop_fields {V : Type} :
    ∀ (fuel : Nat) (s : MState V),
      (free_list_compress_loop fuel s).data_capacity = s.data_capacity ∧
      (free_list_compress_loop fuel s).vals = s.vals ∧
      (free_list_compress_loop fuel s).data_null = s.data_null ∧
      (free_list_compress_loop fuel s).free_null = s.free_null ∧
      (free_list_compress_loop fuel s).free_list_capacity =
        s.free_list_capacity := by
  intro fuel
  induction fuel with
  | zero => intro s; exact ⟨rfl, rfl, rfl, rfl, rfl⟩
  | succ fuel ih =>
    intro s
    rw [free_list_compress_loop]
    cases h : scan_rule s.data_size s.free_list 0 with
    | none => exact ⟨rfl, rfl, rfl, rfl, rfl⟩
    | some a =>
      obtain ⟨f1, f2, f3, f4, f5⟩ := ih (apply_act s a)
      obtain ⟨g1, g2, g3, g4, g5⟩ := apply_act_fields s a
      exact ⟨f1.trans g1, f2.trans g2, f3.trans g3, f4.trans g4, f5.trans g5⟩

theorem free_list_compress_fields {V : Type} (s : MState V) :
    (free_list_compress s).data_capacity = s.data_capacity ∧
    (free_list_compress s).vals = s.vals ∧
    (free_list_compress s).data_null = s.data_null ∧
    (free_list_compress s).free_null = s.free_null ∧
    (free_list_compress s).free_list_capacity = s.free_list_capacity :=
  free_list_compress_loop_fields s.free_list.length s

/-- The compression loop preserves the core free-list invariant. -/
theorem free_list_compress_loop_inv {V : Type} :
    ∀ (fuel : Nat) (s : MState V),
      (∀ e ∈ s.free_list, entry_ok s.data_size e) →
      s.free_list.Pairwise idx_disjoint →
      (∀ e ∈ (free_list_compress_loop fuel s).free_list,
        entry_ok (free_list_compress_loop fuel s).data_size e) ∧
      (free_list_compress_loop fuel s).free_list.Pairwise idx_disjoint := by
  intro fuel
  induction fuel with
  | zero => intro s h1 h2; exact ⟨h1, h2⟩
  | succ fuel ih =>
    intro s h1 h2
    rw [free_list_compress_loop]
    cases h : scan_rule s.data_size s.free_list 0 with
    | none => exact ⟨h1, h2⟩
    | some a =>
      obtain ⟨g1, g2⟩ := apply_act_inv s a h1 h2 h
      exact ih (apply_act s a) g1 g2

theorem free_list_compress_inv {V : Type} (s : MState V)
    (h1 : ∀ e ∈ s.free_list, entry_ok s.data_size e)
    (h2 : s.free_list.Pairwise idx_disjoint) :
    (∀ e ∈ (free_list_compress s).free_list,
      entry_ok (free_list_compress s).data_size e) ∧
    (free_list_compress s).free_list.Pairwise idx_disjoint :=
  free_list_compress_loop_inv s.free_list.length s h1 h2

/-- The result of free_list_compress satisfies the after-compaction
conditions: no two entries adjacent, no entry touching the data size. -/
theorem free_list_compress_compressed {V : Type} (s : MState V) :
    FLCompressed (free_list_compress s) := by
  obtain ⟨h1, h2⟩ := scan_rule_none_imp (free_list_compress s).data_size
    (free_list_compress s).free_list 0 (free_list_compress_scan_none s)
  exact ⟨h2, h1⟩

/-- Where first_fit finds an entry: the first one long enough. -/
theorem first_fit_spec (count : Nat) :
    ∀ (l : List idx_t) (i : Nat) (e : idx_t),
      first_fit count l = some (i, e) →
      ∃ h : i < l.length, l[i] = e ∧ count ≤ length e ∧
        ∀ p (hp : p < l.length), p < i → ¬ count ≤ length l[p] := by
  intro l
  induction l with
  | nil => intro i e h; cases h
  | cons f rest ih =>
    intro i e h
    rw [first_fit] at h
    by_cases hf : count ≤ length f
    · rw [if_pos hf] at h
      cases h
      exact ⟨by simp, by simp, hf, fun p hp hpi => absurd hpi (by omega)⟩
    · rw [if_neg hf] at h
      cases hrec : first_fit count rest with
      | none => rw [hrec] at h; cases h
      | some pe =>
        rw [hrec] at h
        simp only [Option.map_some', Option.some.injEq] at h
        obtain ⟨i', e'⟩ := pe
        cases h
        obtain ⟨hlt, hval, hcnt, hfirst⟩ := ih i' e' hrec
        refine ⟨by simpa using Nat.succ_lt_succ hlt, by simpa using hval,
          hcnt, ?_⟩
        intro p hp hpi
        cases p with
        | zero => simpa using hf
        | succ p' =>
          have : (f :: rest)[p' + 1] = rest[p'] := by simp
          rw [this]
          exact hfirst p' (by simpa using Nat.lt_of_succ_lt_succ hp)
            (Nat.lt_of_succ_lt_succ hpi)

/-- Where first_fit finds nothing: no entry is long enough. -/
theorem first_fit_none (count : Nat) :
    ∀ l : List idx_t, first_fit count l = none →
      ∀ e ∈ l, ¬ count ≤ length e := by
  intro l
  induction l with
  | nil => intro _ e he; cases he
  | cons f rest ih =>
    intro h e he
    rw [first_fit] at h
    by_cases hf : count ≤ length f
    · rw [if_pos hf] at h; cases h
    · rw [if_neg hf] at h
      rcases List.mem_cons.mp he with rfl | he'
      · exact hf
      · cases hrec : first_fit count rest with
        | none => exact ih hrec e he'
        | some pe => rw [hrec] at h; cases h

/-- A sub-range of a range stays disjoint from whatever the range was
disjoint from. -/
theorem sub_entry_disjoint {a e g : idx_t} (h1 : e.start ≤ a.start)
    (h2 : a.end_ ≤ e.end_) (h : idx_disjoint e g) : idx_disjoint a g := by
  simp only [idx_disjoint] at *
  omega

/-- The tail-allocation path preserves the core free-list invariant (the
data size only grows). -/
theorem mex_mpfr_allocate_tail_inv {V : Type} (count : Nat) (s1 : MState V)
    (hok : ∀ e ∈ s1.free_list, entry_ok s1.data_size e)
    (hdis : s1.free_list.Pairwise idx_disjoint) :
    (∀ e ∈ (mex_mpfr_allocate_tail count s1).2.free_list,
      entry_ok (mex_mpfr_allocate_tail count s1).2.data_size e) ∧
    (mex_mpfr_allocate_tail count s1).2.free_list.Pairwise idx_disjoint := by
  refine ⟨fun e he => ?_, hdis⟩
  obtain ⟨h1, h2, h3⟩ := hok e he
  exact ⟨h1, h2, by show e.end_ ≤ s1.data_size + count; omega⟩

/-- mex_mpfr_allocate preserves the core free-list invariant, for every
count and whether or not growth succeeds. -/
theorem mex_mpfr_allocate_inv {V : Type} (g : Bool) (d : V) (count : Nat)
    (s : MState V)
    (hok : ∀ e ∈ s.free_list, entry_ok s.data_size e)
    (hdis : s.free_list.Pairwise idx_disjoint) :
    (∀ e ∈ (mex_mpfr_allocate g d count s).2.free_list,
      entry_ok (mex_mpfr_allocate g d count s).2.data_size e) ∧
    (mex_mpfr_allocate g d count s).2.free_list.Pairwise idx_disjoint := by
  rw [mex_mpfr_allocate]
  by_cases hc : count = 0
  · rw [if_pos hc]; exact ⟨hok, hdis⟩
  rw [if_neg hc]
  split
  · next i e hff =>
    obtain ⟨hi, hie, hcnt, -⟩ := first_fit_spec count s.free_list i e hff
    have hoke : entry_ok s.data_size e := by
      rw [← hie]; exact hok _ (List.getElem_mem _)
    obtain ⟨he1, he2, he3⟩ := hoke
    split
    · next hcarve =>
      show (∀ x ∈ s.free_list.set i (idx_t.mk (e.start + count) e.end_),
            entry_ok s.data_size x) ∧
          (s.free_list.set i
            (idx_t.mk (e.start + count) e.end_)).Pairwise idx_disjoint
      have hlene : length e = e.end_ - e.start + 1 := rfl
      constructor
      · intro x hx
        obtain ⟨q, hq, hqe⟩ := List.mem_iff_getElem.mp hx
        rw [List.getElem_set] at hqe
        rw [← hqe]
        split
        · exact ⟨by show 1 ≤ e.start + count; omega,
            by show e.start + count ≤ e.end_; omega, he3⟩
        · exact hok _ (List.getElem_mem _)
      · rw [List.pairwise_iff_getElem]
        have hpw := List.pairwise_iff_getElem.mp hdis
        intro q1 q2 hq1 hq2 h12
        rw [List.length_set] at hq1 hq2
        rw [List.getElem_set, List.getElem_set]
        have hde : ∀ q (hq : q < s.free_list.length), ¬ i = q →
            idx_disjoint (idx_t.mk (e.start + count) e.end_)
              s.free_list[q] := by
          intro q hq hne
          refine sub_entry_disjoint (e := e) ?_ ?_ ?_
          · show e.start ≤ e.start + count; omega
          · show e.end_ ≤ e.end_; omega
          · have hd : idx_disjoint s.free_list[i] s.free_list[q] := by
              rcases Nat.lt_or_ge i q with h | h
              · exact hpw i q hi hq h
              · exact idx_disjoint_symm (hpw q i hq hi (by omega))
            rw [hie] at hd
            exact hd
        split
        · next hq1i =>
          split
          · next hq2i => omega
          · next hq2i => exact hde q2 hq2 hq2i
        · next hq1i =>
          split
          · next hq2i => exact idx_disjoint_symm (hde q1 hq1 hq1i)
          · exact hpw q1 q2 hq1 hq2 h12
    · exact ⟨fun x hx => hok x (List.mem_of_mem_eraseIdx hx),
        List.Pairwise.sublist (List.eraseIdx_sublist _ i) hdis⟩
  · split
    · split
      · exact mex_mpfr_allocate_tail_inv count _ hok hdis
      · exact ⟨hok, hdis⟩
    · exact mex_mpfr_allocate_tail_inv count s hok hdis

/-- The reinitialize-append-compress body of mex_mpfr_mark_free preserves
the core free-list invariant when the marked range is valid and disjoint
from every current entry. -/
theorem mex_mpfr_mark_free_body_inv {V : Type} (d : V) (idx : idx_t)
    (s1 : MState V)
    (hok : ∀ e ∈ s1.free_list, entry_ok s1.data_size e)
    (hdis : s1.free_list.Pairwise idx_disjoint)
    (hval : entry_ok s1.data_size idx)
    (hdisj : ∀ e ∈ s1.free_list, idx_disjoint idx e) :
    (∀ e ∈ (mex_mpfr_mark_free_body d idx s1).free_list,
      entry_ok (mex_mpfr_mark_free_body d idx s1).data_size e) ∧
    (mex_mpfr_mark_free_body d idx s1).free_list.Pairwise idx_disjoint := by
  rw [mex_mpfr_mark_free_body]
  refine free_list_compress_inv _ ?_ ?_
  · intro e he
    rcases List.mem_append.mp he with he' | he'
    · exact hok e he'
    · rw [List.mem_singleton.mp he']
      exact hval
  · rw [List.pairwise_append]
    refine ⟨hdis, by simp, ?_⟩
    intro a ha b hb
    rw [List.mem_singleton.mp hb]
    exact idx_disjoint_symm (hdisj a ha)

/-- mex_mpfr_mark_free preserves the core free-list invariant, provided
the marked range does not overlap any current free-list entry. -/
theorem mex_mpfr_mark_free_inv {V : Type} (g : Bool) (d : V) (idx : idx_t)
    (s : MState V)
    (hok : ∀ e ∈ s.free_list, entry_ok s.data_size e)
    (hdis : s.free_list.Pairwise idx_disjoint)
    (hdisj : ∀ e ∈ s.free_list, idx_disjoint idx e) :
    (∀ e ∈ (mex_mpfr_mark_free g d idx s).free_list,
      entry_ok (mex_mpfr_mark_free g d idx s).data_size e) ∧
    (mex_mpfr_mark_free g d idx s).free_list.Pairwise idx_disjoint := by
  rw [mex_mpfr_mark_free]
  split
  · exact ⟨hok, hdis⟩
  · next hv =>
    rw [not_not] at hv
    have hval : entry_ok s.data_size idx := (is_valid_iff_entry_ok _ _).mp hv
    split
    · split
      · exact mex_mpfr_mark_free_body_inv d idx _ hok hdis hval hdisj
      · exact ⟨hok, hdis⟩
    · exact mex_mpfr_mark_free_body_inv d idx s hok hdis hval hdisj

/-- Whenever mex_mpfr_mark_free actually reaches its compaction (valid
range and no growth failure), the resulting state satisfies the
after-compaction conditions. -/
theorem mex_mpfr_mark_free_compressed {V : Type} (g : Bool) (d : V)
    (idx : idx_t) (s : MState V)
    (hv : is_valid s.data_size idx = true)
    (hgrow : s.free_list.length ≠ s.free_list_capacity ∨ g = true) :
    FLCompressed (mex_mpfr_mark_free g d idx s) := by
  rw [mex_mpfr_mark_free]
  rw [if_neg (by simp [hv])]
  split
  · next hfull =>
    rcases hgrow with hgrow | hgrow
    · exact absurd hfull hgrow
    · rw [if_pos hgrow]
      exact free_list_compress_compressed _
  · exact free_list_compress_compressed _

/-- mex_mpfr_mark_free never changes the data capacity, the data pointer
flag or the stored values outside the marked range. -/
theorem mex_mpfr_mark_free_data_capacity {V : Type} (g : Bool) (d : V)
    (idx : idx_t) (s : MState V) :
    (mex_mpfr_mark_free g d idx s).data_capacity = s.data_capacity := by
  rw [mex_mpfr_mark_free]
  split
  · rfl
  · split
    · split
      · rw [mex_mpfr_mark_free_body]
        exact (free_list_compress_fields _).1
      · rfl
    · rw [mex_mpfr_mark_free_body]
      exact (free_list_compress_fields _).1

/-! Scenario lemmas for the allocate, mark free, allocate reuse property:
how the scan of free_list_compress behaves on a compressed list with one
range appended at the end. -/

theorem scan_adj_append_last (e : idx_t) :
    ∀ (l : List idx_t) (j : Nat) (r : idx_t),
      (∀ f ∈ l, adj e f = false) → adj e r = true →
      scan_adj e (l ++ [r]) j = some (j + l.length) := by
  intro l
  induction l with
  | nil => intro j r _ hr; simp [scan_adj, hr]
  | cons f rest ih =>
    intro j r hl hr
    rw [List.cons_append, scan_adj, hl f (List.mem_cons_self f rest)]
    simp only [Bool.false_eq_true, if_false]
    rw [ih (j + 1) r (fun g hg => hl g (List.mem_cons_of_mem f hg)) hr]
    simp
    omega

/-- On a compressed list with a range touching the data size appended at
the end, the scan reports Rule 1 at the appended position. -/
theorem scan_rule_tail (ds : Nat) :
    ∀ (L : List idx_t) (i : Nat) (r : idx_t),
      (∀ f ∈ L, f.end_ ≠ ds) →
      L.Pairwise (fun a b => adj a b = false) →
      (∀ f ∈ L, adj f r = false) → r.end_ = ds →
      scan_rule ds (L ++ [r]) i = some (CompressAct.rule1 (i + L.length)) := by
  intro L
  induction L with
  | nil => intro i r _ _ _ hr; simp [scan_rule, hr]
  | cons e rest ih =>
    intro i r hend hpw hadjr hr
    rw [List.cons_append, scan_rule,
      if_neg (hend e (List.mem_cons_self e rest))]
    have hnone : scan_adj e (rest ++ [r]) (i + 1) = none := by
      refine scan_adj_none_of e _ _ ?_
      intro f hf
      rcases List.mem_append.mp hf with hf' | hf'
      · exact (List.pairwise_cons.mp hpw).1 f hf'
      · rw [List.mem_singleton.mp hf']
        exact hadjr e (List.mem_cons_self e rest)
    rw [hnone,
      ih (i + 1) r (fun f hf => hend f (List.mem_cons_of_mem e hf))
        (List.pairwise_cons.mp hpw).2
        (fun f hf => hadjr f (List.mem_cons_of_mem e hf)) hr]
    simp
    omega

/-- On a compressed list whose carved entry is followed (after the rest of
the list) by the just-freed range adjacent to it, the scan reports Rule 2
merging the carved entry with the appended range. -/
theorem scan_rule_carve (ds : Nat) :
    ∀ (P : List idx_t) (i : Nat) (e' : idx_t) (Q : List idx_t) (r : idx_t),
      (∀ f ∈ P, f.end_ ≠ ds) → e'.end_ ≠ ds →
      (P ++ e' :: Q).Pairwise (fun a b => adj a b = false) →
      (∀ f ∈ P, adj f r = false) → adj e' r = true →
      scan_rule ds (P ++ e' :: (Q ++ [r])) i =
        some (CompressAct.rule2 (i + P.length)
          (i + P.length + 1 + Q.length)) := by
  intro P
  induction P with
  | nil =>
    intro i e' Q r _ hend hpw _ hadj
    rw [List.nil_append] at hpw
    rw [List.nil_append, scan_rule, if_neg hend,
      scan_adj_append_last e' Q (i + 1) r
        (List.pairwise_cons.mp hpw).1 hadj]
    simp
  | cons f P' ih =>
    intro i e' Q r hend he'end hpw hadjr hadj
    rw [List.cons_append, scan_rule,
      if_neg (hend f (List.mem_cons_self f P'))]
    rw [List.cons_append] at hpw
    have hpc := List.pairwise_cons.mp hpw
    have hnone : scan_adj f (P' ++ e' :: (Q ++ [r])) (i + 1) = none := by
      refine scan_adj_none_of f _ _ ?_
      intro g hg
      rcases List.mem_append.mp hg with hg' | hg'
      · exact hpc.1 g (List.mem_append.mpr (Or.inl hg'))
      · rcases List.mem_cons.mp hg' with rfl | hg''
        · exact hpc.1 g (List.mem_append.mpr (Or.inr (List.mem_cons_self _ _)))
        · rcases List.mem_append.mp hg'' with hg3 | hg3
          · exact hpc.1 g
              (List.mem_append.mpr (Or.inr (List.mem_cons_of_mem _ hg3)))
          · rw [List.mem_singleton.mp hg3]
            exact hadjr f (List.mem_cons_self f P')
    rw [hnone,
      ih (i + 1) e' Q r (fun g hg => hend g (List.mem_cons_of_mem f hg))
        he'end hpc.2 (fun g hg => hadjr g (List.mem_cons_of_mem f hg)) hadj]
    simp
    omega

theorem eraseIdx_concat {α : Type} :
    ∀ (l : List α) (r : α), (l ++ [r]).eraseIdx l.length = l := by
  intro l r
  induction l with
  | nil => rfl
  | cons x rest ih =>
    rw [List.cons_append, List.length_cons, List.eraseIdx_cons_succ, ih]

theorem set_append_cons {α : Type} :
    ∀ (P : List α) (e m : α) (rest : List α),
      (P ++ e :: rest).set P.length m = P ++ m :: rest := by
  intro P e m rest
  induction P with
  | nil => rfl
  | cons x P' ih =>
    rw [List.cons_append, List.length_cons, List.set_cons_succ, ih,
      List.cons_append]

theorem first_fit_append (count : Nat) :
    ∀ (P : List idx_t) (e : idx_t) (Q : List idx_t),
      (∀ p ∈ P, ¬ count ≤ length p) → count ≤ length e →
      first_fit count (P ++ e :: Q) = some (P.length, e) := by
  intro P
  induction P with
  | nil => intro e Q _ he; rw [List.nil_append, first_fit, if_pos he]; rfl
  | cons f P' ih =>
    intro e Q hP he
    rw [List.cons_append, first_fit,
      if_neg (hP f (List.mem_cons_self f P')),
      ih e Q (fun p hp => hP p (List.mem_cons_of_mem f hp)) he]
    rfl

/-- When no rule fires, the compression loop is the identity whatever the
fuel. -/
theorem free_list_compress_loop_id {V : Type} (fuel : Nat) (s : MState V)
    (h : scan_rule s.data_size s.free_list 0 = none) :
    free_list_compress_loop fuel s = s := by
  cases fuel with
  | zero => rfl
  | succ fuel => rw [free_list_compress_loop, h]

/-- When exactly one rule fires, free_list_compress applies just that
action. -/
theorem free_list_compress_one_step {V : Type} (s : MState V)
    (a : CompressAct) (ha : scan_rule s.data_size s.free_list 0 = some a)
    (hdone : scan_rule (apply_act s a).data_size
      (apply_act s a).free_list 0 = none) :
    free_list_compress s = apply_act s a := by
  rw [free_list_compress]
  cases hl : s.free_list with
  | nil => rw [hl] at ha; cases ha
  | cons x rest =>
    rw [List.length_cons, free_list_compress_loop, ha]
    exact free_list_compress_loop_id rest.length (apply_act s a) hdone

/-- The growth loop reaches a capacity at least as large as the need. -/
theorem grow_capacity_ge : ∀ (cap need : Nat), need ≤ grow_capacity cap need := by
  intro cap need
  induction cap, need using grow_capacity.induct with
  | case1 cap need hlt ih => rw [grow_capacity, if_pos hlt]; exact ih
  | case2 cap need hge => rw [grow_capacity, if_neg hge]; omega

/-- Merging the carved-off remainder of an entry with the just-freed low
part restores the original entry. -/
theorem merge_carve_eq (e : idx_t) (count : Nat) (hcount : 0 < count)
    (he : e.start ≤ e.end_) (hcar : count < length e) :
    merge_idx (idx_t.mk (e.start + count) e.end_)
      (idx_t.mk e.start (e.start + count - 1)) = e := by
  have hlene : length e = e.end_ - e.start + 1 := rfl
  cases e with
  | mk es ee =>
    simp only [merge_idx, idx_t.mk.injEq]
    simp only [length] at hcar hlene
    constructor
    · rw [if_neg (by simp; omega)]
    · rw [if_pos (by simp; omega)]

/-- A range non-adjacent to and disjoint from an entry stays non-adjacent
to the entry shortened from the left. -/
theorem adj_carved_false {f e : idx_t} (count : Nat) (hcount : 0 < count)
    (hadj : adj f e = false) (hd : idx_disjoint f e)
    (hf : f.start ≤ f.end_) (he : e.start ≤ e.end_)
    (hcar : count < length e) :
    adj f (idx_t.mk (e.start + count) e.end_) = false := by
  rw [adj_false_iff] at *
  simp only [idx_t.mk]
  have hlene : length e = e.end_ - e.start + 1 := rfl
  simp only [length] at hcar hlene
  rcases hd with hd | hd <;> constructor <;> simp <;> omega

theorem adj_carved_false_right {e g : idx_t} (count : Nat)
    (hcount : 0 < count) (hadj : adj e g = false) (hd : idx_disjoint e g)
    (hg : g.start ≤ g.end_) (he : e.start ≤ e.end_)
    (hcar : count < length e) :
    adj (idx_t.mk (e.start + count) e.end_) g = false := by
  rw [adj_false_iff] at *
  simp only [idx_t.mk]
  have hlene : length e = e.end_ - e.start + 1 := rfl
  simp only [length] at hcar hlene
  rcases hd with hd | hd <;> constructor <;> simp <;> omega

/-- A range non-adjacent to and disjoint from an entry is non-adjacent to
the freed low part of the entry. -/
theorem adj_freed_false {f e : idx_t} (count : Nat) (hcount : 0 < count)
    (hadj : adj f e = false) (hd : idx_disjoint f e)
    (hf : f.start ≤ f.end_) (he : e.start ≤ e.end_)
    (hcar : count < length e) :
    adj f (idx_t.mk e.start (e.start + count - 1)) = false := by
  rw [adj_false_iff] at *
  simp only [idx_t.mk]
  have hlene : length e = e.end_ - e.start + 1 := rfl
  simp only [length] at hcar hlene
  rcases hd with hd | hd <;> constructor <;> simp <;> omega

/-- Evaluation of apply_act on Rule 1 when the indexed entry exists. -/
theorem apply_act_rule1_eq {V : Type} (s : MState V) (i : Nat) (e : idx_t)
    (hi : s.free_list[i]? = some e) :
    apply_act s (CompressAct.rule1 i) =
      { s with data_size := e.start - 1,
               free_list := s.free_list.eraseIdx i } := by
  simp only [apply_act, hi]

/-- Evaluation of apply_act on Rule 2 when both indexed entries exist. -/
theorem apply_act_rule2_eq {V : Type} (s : MState V) (i j : Nat)
    (e f : idx_t) (hi : s.free_list[i]? = some e)
    (hj : s.free_list[j]? = some f) :
    apply_act s (CompressAct.rule2 i j) =
      { s with free_list := (s.free_list.set i (merge_idx e f)).eraseIdx j } := by
  simp only [apply_act, hi, hj]

/-- Compression of a compressed list with the low part of a carved entry
appended: exactly one Rule 2 fires, merging the carved entry with the
appended range back into the original entry. -/
theorem compress_carve {V : Type} (s3 : MState V) (P Q : List idx_t)
    (e : idx_t) (count : Nat) (hcount : 0 < count)
    (hfl : s3.free_list
        = (P ++ idx_t.mk (e.start + count) e.end_ :: Q)
            ++ [idx_t.mk e.start (e.start + count - 1)])
    (hcar : count < length e)
    (hends : ∀ f ∈ P ++ e :: Q, f.end_ ≠ s3.data_size)
    (hnadj : (P ++ e :: Q).Pairwise (fun a b => adj a b = false))
    (hdis : (P ++ e :: Q).Pairwise idx_disjoint)
    (hwf : ∀ f ∈ P ++ e :: Q, f.start ≤ f.end_) :
    (free_list_compress s3).free_list = P ++ e :: Q ∧
      (free_list_compress s3).data_size = s3.data_size ∧
      (free_list_compress s3).data_capacity = s3.data_capacity := by
  have hmemE : e ∈ P ++ e :: Q :=
    List.mem_append.mpr (Or.inr (List.mem_cons_self e Q))
  have he : e.start ≤ e.end_ := hwf e hmemE
  have hpw := List.pairwise_append.mp hnadj
  have hdw := List.pairwise_append.mp hdis
  have hpwQ := List.pairwise_cons.mp hpw.2.1
  have hdwQ := List.pairwise_cons.mp hdw.2.1
  have hnadj' : (P ++ idx_t.mk (e.start + count) e.end_ :: Q).Pairwise
      (fun a b => adj a b = false) := by
    rw [List.pairwise_append]
    refine ⟨hpw.1, ?_, ?_⟩
    · rw [List.pairwise_cons]
      refine ⟨fun g hg => ?_, hpwQ.2⟩
      exact adj_carved_false_right count hcount (hpwQ.1 g hg) (hdwQ.1 g hg)
        (hwf g (List.mem_append.mpr (Or.inr (List.mem_cons_of_mem e hg))))
        he hcar
    · intro a ha b hb
      rcases List.mem_cons.mp hb with rfl | hb'
      · exact adj_carved_false count hcount
          (hpw.2.2 a ha e (List.mem_cons_self e Q))
          (hdw.2.2 a ha e (List.mem_cons_self e Q))
          (hwf a (List.mem_append.mpr (Or.inl ha))) he hcar
      · exact hpw.2.2 a ha b (List.mem_cons_of_mem e hb')
  have hadjPr : ∀ f ∈ P,
      adj f (idx_t.mk e.start (e.start + count - 1)) = false := by
    intro f hf
    exact adj_freed_false count hcount
      (hpw.2.2 f hf e (List.mem_cons_self e Q))
      (hdw.2.2 f hf e (List.mem_cons_self e Q))
      (hwf f (List.mem_append.mpr (Or.inl hf))) he hcar
  have hadjer : adj (idx_t.mk (e.start + count) e.end_)
      (idx_t.mk e.start (e.start + count - 1)) = true := by
    rw [adj_iff]
    right
    show e.start + count - 1 + 1 = e.start + count
    omega
  have hX : s3.free_list
      = P ++ idx_t.mk (e.start + count) e.end_
          :: (Q ++ [idx_t.mk e.start (e.start + count - 1)]) := by
    rw [hfl, List.append_assoc, List.cons_append]
  have hscan : scan_rule s3.data_size s3.free_list 0
      = some (CompressAct.rule2 (0 + P.length)
          (0 + P.length + 1 + Q.length)) := by
    rw [hX]
    exact scan_rule_carve s3.data_size P 0 (idx_t.mk (e.start + count) e.end_)
      Q (idx_t.mk e.start (e.start + count - 1))
      (fun f hf => hends f (List.mem_append.mpr (Or.inl hf)))
      (hends e hmemE) hnadj' hadjPr hadjer
  have hscan' : scan_rule s3.data_size s3.free_list 0
      = some (CompressAct.rule2 P.length (P.length + 1 + Q.length)) := by
    simpa using hscan
  have hlen1 : (P ++ idx_t.mk (e.start + count) e.end_ :: Q).length
      = P.length + 1 + Q.length := by
    simp only [List.length_append, List.length_cons]
    omega
  have hlen2 : (P ++ e :: Q).length = P.length + 1 + Q.length := by
    simp only [List.length_append, List.length_cons]
    omega
  have hXi : s3.free_list[P.length]?
      = some (idx_t.mk (e.start + count) e.end_) := by
    rw [hX, List.getElem?_append_right (le_refl P.length)]
    simp
  have hXj : s3.free_list[P.length + 1 + Q.length]?
      = some (idx_t.mk e.start (e.start + count - 1)) := by
    rw [hfl, ← hlen1, List.getElem?_append_right (le_refl _)]
    simp
  have hlist : (s3.free_list.set P.length
      (merge_idx (idx_t.mk (e.start + count) e.end_)
        (idx_t.mk e.start (e.start + count - 1)))).eraseIdx
      (P.length + 1 + Q.length) = P ++ e :: Q := by
    rw [merge_carve_eq e count hcount he hcar, hX, set_append_cons]
    rw [show P ++ e :: (Q ++ [idx_t.mk e.start (e.start + count - 1)])
        = (P ++ e :: Q) ++ [idx_t.mk e.start (e.start + count - 1)] from by
      rw [List.append_assoc, List.cons_append]]
    rw [← hlen2, eraseIdx_concat]
  have happ : apply_act s3
      (CompressAct.rule2 P.length (P.length + 1 + Q.length))
      = { s3 with free_list := P ++ e :: Q } := by
    rw [apply_act_rule2_eq s3 P.length (P.length + 1 + Q.length) _ _ hXi hXj,
      hlist]
  have hafter : scan_rule s3.data_size (P ++ e :: Q) 0 = none :=
    scan_rule_none_of s3.data_size (P ++ e :: Q) 0 hends hnadj
  have hcomp : free_list_compress s3 = { s3 with free_list := P ++ e :: Q } := by
    rw [free_list_compress_one_step s3
      (CompressAct.rule2 P.length (P.length + 1 + Q.length)) hscan'
      (by rw [happ]; exact hafter), happ]
  exact ⟨by rw [hcomp], by rw [hcomp], by rw [hcomp]⟩

/-- Compression of a compressed list with the top of the pool appended:
exactly one Rule 1 fires, removing the appended range and restoring the
previous data size. -/
theorem compress_tail {V : Type} (s3 : MState V) (L : List idx_t)
    (ds0 count : Nat) (hcount : 0 < count)
    (hfl : s3.free_list = L ++ [idx_t.mk (ds0 + 1) (ds0 + count)])
    (hds : s3.data_size = ds0 + count)
    (hok : ∀ f ∈ L, entry_ok ds0 f)
    (hends : ∀ f ∈ L, f.end_ ≠ ds0)
    (hnadj : L.Pairwise (fun a b => adj a b = false)) :
    (free_list_compress s3).free_list = L ∧
      (free_list_compress s3).data_size = ds0 ∧
      (free_list_compress s3).data_capacity = s3.data_capacity := by
  have hscan : scan_rule s3.data_size s3.free_list 0
      = some (CompressAct.rule1 (0 + L.length)) := by
    rw [hfl, hds]
    refine scan_rule_tail (ds0 + count) L 0 (idx_t.mk (ds0 + 1) (ds0 + count))
      (fun f hf => ?_) hnadj (fun f hf => ?_) rfl
    · have h3 := (hok f hf).2.2
      omega
    · rw [adj_false_iff]
      have h1 := (hok f hf).1
      have h2 := (hok f hf).2.1
      have h3 := (hok f hf).2.2
      have h4 := hends f hf
      constructor
      · show f.end_ + 1 ≠ ds0 + 1
        omega
      · show ds0 + count + 1 ≠ f.start
        omega
  have hscan' : scan_rule s3.data_size s3.free_list 0
      = some (CompressAct.rule1 L.length) := by simpa using hscan
  have hXi : s3.free_list[L.length]?
      = some (idx_t.mk (ds0 + 1) (ds0 + count)) := by
    rw [hfl, List.getElem?_append_right (le_refl L.length)]
    simp
  have happ : apply_act s3 (CompressAct.rule1 L.length)
      = { s3 with data_size := ds0, free_list := L } := by
    rw [apply_act_rule1_eq s3 L.length _ hXi]
    have h1 : (idx_t.mk (ds0 + 1) (ds0 + count)).start - 1 = ds0 := by
      show ds0 + 1 - 1 = ds0
      omega
    rw [h1, hfl, eraseIdx_concat]
  have hafter : scan_rule ds0 L 0 = none :=
    scan_rule_none_of ds0 L 0 hends hnadj
  have hcomp : free_list_compress s3
      = { s3 with data_size := ds0, free_list := L } := by
    rw [free_list_compress_one_step s3 (CompressAct.rule1 L.length) hscan'
      (by rw [happ]; exact hafter), happ]
  exact ⟨by rw [hcomp], by rw [hcomp], by rw [hcomp]⟩

/-- Marking the low part of a carved entry free restores the free list to
its state before the carve, leaving data size and capacity unchanged. -/
theorem mark_free_fields_carve {V : Type} (d : V) (s1 : MState V)
    (P Q : List idx_t) (e : idx_t) (count : Nat) (hcount : 0 < count)
    (hfl : s1.free_list = P ++ idx_t.mk (e.start + count) e.end_ :: Q)
    (hcar : count < length e)
    (hv : is_valid s1.data_size (idx_t.mk e.start (e.start + count - 1)) = true)
    (hends : ∀ f ∈ P ++ e :: Q, f.end_ ≠ s1.data_size)
    (hnadj : (P ++ e :: Q).Pairwise (fun a b => adj a b = false))
    (hdis : (P ++ e :: Q).Pairwise idx_disjoint)
    (hwf : ∀ f ∈ P ++ e :: Q, f.start ≤ f.end_) :
    (mex_mpfr_mark_free true d (idx_t.mk e.start (e.start + count - 1))
        s1).free_list = P ++ e :: Q ∧
      (mex_mpfr_mark_free true d (idx_t.mk e.start (e.start + count - 1))
        s1).data_size = s1.data_size ∧
      (mex_mpfr_mark_free true d (idx_t.mk e.start (e.start + count - 1))
        s1).data_capacity = s1.data_capacity := by
  rw [mex_mpfr_mark_free, if_neg (not_not_intro hv)]
  by_cases hfull : s1.free_list.length = s1.free_list_capacity
  · rw [if_pos hfull, if_pos rfl, mex_mpfr_mark_free_body]
    exact compress_carve _ P Q e count hcount (by show s1.free_list ++ _ = _; rw [hfl])
      hcar hends hnadj hdis hwf
  · rw [if_neg hfull, mex_mpfr_mark_free_body]
    exact compress_carve _ P Q e count hcount (by show s1.free_list ++ _ = _; rw [hfl])
      hcar hends hnadj hdis hwf

/-- Marking the just-grown top range of the pool free shrinks the data size
back, leaving the free list and the capacity unchanged. -/
theorem mark_free_fields_tail {V : Type} (d : V) (s1 : MState V)
    (ds0 count : Nat) (hcount : 0 < count)
    (hds : s1.data_size = ds0 + count)
    (hok : ∀ f ∈ s1.free_list, entry_ok ds0 f)
    (hends : ∀ f ∈ s1.free_list, f.end_ ≠ ds0)
    (hnadj : s1.free_list.Pairwise (fun a b => adj a b = false)) :
    (mex_mpfr_mark_free true d (idx_t.mk (ds0 + 1) (ds0 + count))
        s1).free_list = s1.free_list ∧
      (mex_mpfr_mark_free true d (idx_t.mk (ds0 + 1) (ds0 + count))
        s1).data_size = ds0 ∧
      (mex_mpfr_mark_free true d (idx_t.mk (ds0 + 1) (ds0 + count))
        s1).data_capacity = s1.data_capacity := by
  have hv : is_valid s1.data_size (idx_t.mk (ds0 + 1) (ds0 + count)) = true := by
    rw [hds, is_valid_iff_entry_ok]
    exact ⟨by show 1 ≤ ds0 + 1; omega,
      by show ds0 + 1 ≤ ds0 + count; omega,
      by show ds0 + count ≤ ds0 + count; omega⟩
  rw [mex_mpfr_mark_free, if_neg (not_not_intro hv)]
  by_cases hfull : s1.free_list.length = s1.free_list_capacity
  · rw [if_pos hfull, if_pos rfl, mex_mpfr_mark_free_body]
    exact compress_tail _ s1.free_list ds0 count hcount rfl hds hok hends hnadj
  · rw [if_neg hfull, mex_mpfr_mark_free_body]
    exact compress_tail _ s1.free_list ds0 count hcount rfl hds hok hends hnadj

/-- The carve branch of mex_mpfr_allocate, evaluated: the first long enough
entry loses its low count slots, which are returned. -/
theorem mex_mpfr_allocate_carve {V : Type} (g : Bool) (d : V) (count : Nat)
    (s : MState V) (i : Nat) (e : idx_t) (hc0 : count ≠ 0)
    (hff : first_fit count s.free_list = some (i, e))
    (hcar : count < length e)
    (hv : is_valid s.data_size (idx_t.mk e.start (e.start + count - 1)) = true) :
    mex_mpfr_allocate g d count s =
      (some (idx_t.mk e.start (e.start + count - 1)),
       { s with free_list :=
           s.free_list.set i (idx_t.mk (e.start + count) e.end_) }) := by
  rw [mex_mpfr_allocate, if_neg hc0]
  simp only [hff, if_pos hcar, if_pos hv]

/-- The growth branch of mex_mpfr_allocate: no fit and insufficient
capacity lead to the tail allocation on the grown state. -/
theorem mex_mpfr_allocate_no_fit_grow {V : Type} (d : V) (count : Nat)
    (s : MState V) (hc0 : count ≠ 0)
    (hff : first_fit count s.free_list = none)
    (hgrow : s.data_size + count > s.data_capacity) :
    mex_mpfr_allocate true d count s =
      mex_mpfr_allocate_tail count
        { s with data_null := false,
                 vals := fun n =>
                   if s.data_capacity ≤ n ∧
                       n < grow_capacity s.data_capacity (s.data_size + count)
                     then d else s.vals n,
                 data_capacity :=
                   grow_capacity s.data_capacity (s.data_size + count) } := by
  rw [mex_mpfr_allocate, if_neg hc0]
  simp only [hff, if_pos hgrow, if_true]

/-- The no-growth tail branch of mex_mpfr_allocate: no fit but sufficient
capacity lead to the plain tail allocation. -/
theorem mex_mpfr_allocate_no_fit_no_grow {V : Type} (g : Bool) (d : V)
    (count : Nat) (s : MState V) (hc0 : count ≠ 0)
    (hff : first_fit count s.free_list = none)
    (hng : ¬ s.data_size + count > s.data_capacity) :
    mex_mpfr_allocate g d count s = mex_mpfr_allocate_tail count s := by
  rw [mex_mpfr_allocate, if_neg hc0]
  simp only [hff, if_neg hng]

/-- Allocate, mark free, allocate when the first allocation carves a larger
free-list entry: the same range is returned again and the capacity is
unchanged by the second allocation. -/
theorem alloc_reuse_carve {V : Type} (d : V) (count : Nat)
    (hcount : 0 < count) (s : MState V) (i : Nat) (e : idx_t)
    (hok : ∀ f ∈ s.free_list, entry_ok s.data_size f)
    (hdis : s.free_list.Pairwise idx_disjoint)
    (hnadj : s.free_list.Pairwise (fun a b => adj a b = false))
    (hends : ∀ f ∈ s.free_list, f.end_ ≠ s.data_size)
    (hff : first_fit count s.free_list = some (i, e))
    (hcar : count < length e) :
    ∃ r : idx_t,
      (mex_mpfr_allocate true d count s).1 = some r ∧
      (mex_mpfr_allocate true d count
          (mex_mpfr_mark_free true d r (mex_mpfr_allocate true d count s).2)).1
        = some r ∧
      (mex_mpfr_allocate true d count
          (mex_mpfr_mark_free true d r
            (mex_mpfr_allocate true d count s).2)).2.data_capacity
        = (mex_mpfr_allocate true d count s).2.data_capacity := by
  have hc0 : count ≠ 0 := by omega
  obtain ⟨hi, hie, hcnt, hfirst⟩ := first_fit_spec count s.free_list i e hff
  have hmem : e ∈ s.free_list := by
    rw [← hie]
    exact List.getElem_mem hi
  have hoke : entry_ok s.data_size e := hok e hmem
  have hlene : count < e.end_ - e.start + 1 := hcar
  have hv : is_valid s.data_size (idx_t.mk e.start (e.start + count - 1))
      = true := by
    rw [is_valid_iff_entry_ok]
    obtain ⟨h1, h2, h3⟩ := hoke
    exact ⟨h1, by show e.start ≤ e.start + count - 1; omega,
      by show e.start + count - 1 ≤ s.data_size; omega⟩
  have hA1 := mex_mpfr_allocate_carve true d count s i e hc0 hff hcar hv
  have hPsmall : ∀ p ∈ s.free_list.take i, ¬ count ≤ length p := by
    intro p hp
    obtain ⟨q, hq, hqe⟩ := List.getElem_of_mem hp
    have hq1 : q < i := by
      have := hq
      rw [List.length_take] at this
      omega
    have hq2 : q < s.free_list.length := by omega
    have hqt : (s.free_list.take i)[q] = s.free_list[q] :=
      List.getElem_take s.free_list
    rw [hqt] at hqe
    rw [← hqe]
    exact hfirst q hq2 hq1
  obtain ⟨P, Q, hdc, hPlen, hPsm⟩ :
      ∃ P Q, s.free_list = P ++ e :: Q ∧ P.length = i ∧
        ∀ p ∈ P, ¬ count ≤ length p := by
    refine ⟨s.free_list.take i, s.free_list.drop (i + 1), ?_, ?_, hPsmall⟩
    · conv_lhs => rw [← List.take_append_drop i s.free_list]
      rw [List.drop_eq_getElem_cons hi, hie]
    · rw [List.length_take]
      omega
  rw [hdc] at hok hdis hnadj hends
  have hwf : ∀ f ∈ P ++ e :: Q, f.start ≤ f.end_ := fun f hf => (hok f hf).2.1
  have hset : s.free_list.set i (idx_t.mk (e.start + count) e.end_)
      = P ++ idx_t.mk (e.start + count) e.end_ :: Q := by
    rw [hdc, ← hPlen, set_append_cons]
  have hA1fl : (mex_mpfr_allocate true d count s).2.free_list
      = P ++ idx_t.mk (e.start + count) e.end_ :: Q := by
    rw [hA1]
    exact hset
  have hA1ds : (mex_mpfr_allocate true d count s).2.data_size
      = s.data_size := by
    rw [hA1]
  have hA1cap : (mex_mpfr_allocate true d count s).2.data_capacity
      = s.data_capacity := by
    rw [hA1]
  obtain ⟨hMFfl, hMFds, hMFcap⟩ := mark_free_fields_carve d
    (mex_mpfr_allocate true d count s).2 P Q e count hcount hA1fl hcar
    (by rw [hA1ds]; exact hv) (by rw [hA1ds]; exact hends) hnadj hdis hwf
  have hff2 : first_fit count
      (mex_mpfr_mark_free true d (idx_t.mk e.start (e.start + count - 1))
        (mex_mpfr_allocate true d count s).2).free_list
      = some (P.length, e) := by
    rw [hMFfl]
    exact first_fit_append count P e Q hPsm hcnt
  have hv2 : is_valid
      (mex_mpfr_mark_free true d (idx_t.mk e.start (e.start + count - 1))
        (mex_mpfr_allocate true d count s).2).data_size
      (idx_t.mk e.start (e.start + count - 1)) = true := by
    rw [hMFds, hA1ds]
    exact hv
  have hA2 := mex_mpfr_allocate_carve true d count
    (mex_mpfr_mark_free true d (idx_t.mk e.start (e.start + count - 1))
      (mex_mpfr_allocate true d count s).2)
    P.length e hc0 hff2 hcar hv2
  refine ⟨idx_t.mk e.start (e.start + count - 1), ?_, ?_, ?_⟩
  · rw [hA1]
  · rw [hA2]
  · have h2cap : (mex_mpfr_allocate true d count
        (mex_mpfr_mark_free true d (idx_t.mk e.start (e.start + count - 1))
          (mex_mpfr_allocate true d count s).2)).2.data_capacity
        = (mex_mpfr_mark_free true d (idx_t.mk e.start (e.start + count - 1))
            (mex_mpfr_allocate true d count s).2).data_capacity := by
      rw [hA2]
    rw [h2cap, hMFcap]

/-- Allocate, mark free, allocate when the first allocation extends the
pool: the same range is returned again and the capacity is unchanged by
the second allocation. -/
theorem alloc_reuse_tail {V : Type} (d : V) (count : Nat)
    (hcount : 0 < count) (s : MState V)
    (hok : ∀ f ∈ s.free_list, entry_ok s.data_size f)
    (hnadj : s.free_list.Pairwise (fun a b => adj a b = false))
    (hends : ∀ f ∈ s.free_list, f.end_ ≠ s.data_size)
    (hff : first_fit count s.free_list = none) :
    ∃ r : idx_t,
      (mex_mpfr_allocate true d count s).1 = some r ∧
      (mex_mpfr_allocate true d count
          (mex_mpfr_mark_free true d r (mex_mpfr_allocate true d count s).2)).1
        = some r ∧
      (mex_mpfr_allocate true d count
          (mex_mpfr_mark_free true d r
            (mex_mpfr_allocate true d count s).2)).2.data_capacity
        = (mex_mpfr_allocate true d count s).2.data_capacity := by
  have hc0 : count ≠ 0 := by omega
  have hvr : is_valid (s.data_size + count)
      (idx_t.mk (s.data_size + 1) (s.data_size + count)) = true := by
    rw [is_valid_iff_entry_ok]
    exact ⟨by show 1 ≤ s.data_size + 1; omega,
      by show s.data_size + 1 ≤ s.data_size + count; omega,
      by show s.data_size + count ≤ s.data_size + count; omega⟩
  obtain ⟨hA1r, hA1fl, hA1ds, hA1cap⟩ :
      (mex_mpfr_allocate true d count s).1
          = some (idx_t.mk (s.data_size + 1) (s.data_size + count)) ∧
        (mex_mpfr_allocate true d count s).2.free_list = s.free_list ∧
        (mex_mpfr_allocate true d count s).2.data_size
          = s.data_size + count ∧
        s.data_size + count
          ≤ (mex_mpfr_allocate true d count s).2.data_capacity := by
    by_cases hgrow : s.data_size + count > s.data_capacity
    · rw [mex_mpfr_allocate_no_fit_grow d count s hc0 hff hgrow]
      simp only [mex_mpfr_allocate_tail]
      rw [if_pos hvr]
      exact ⟨rfl, trivial, trivial, grow_capacity_ge s.data_capacity _⟩
    · rw [mex_mpfr_allocate_no_fit_no_grow true d count s hc0 hff hgrow]
      simp only [mex_mpfr_allocate_tail]
      rw [if_pos hvr]
      exact ⟨rfl, trivial, trivial, by omega⟩
  obtain ⟨hMFfl, hMFds, hMFcap⟩ := mark_free_fields_tail d
    (mex_mpfr_allocate true d count s).2 s.data_size count hcount hA1ds
    (by rw [hA1fl]; exact hok) (by rw [hA1fl]; exact hends)
    (by rw [hA1fl]; exact hnadj)
  have hff2 : first_fit count
      (mex_mpfr_mark_free true d
        (idx_t.mk (s.data_size + 1) (s.data_size + count))
        (mex_mpfr_allocate true d count s).2).free_list = none := by
    rw [hMFfl, hA1fl]
    exact hff
  have hng2 : ¬ (mex_mpfr_mark_free true d
        (idx_t.mk (s.data_size + 1) (s.data_size + count))
        (mex_mpfr_allocate true d count s).2).data_size + count
      > (mex_mpfr_mark_free true d
          (idx_t.mk (s.data_size + 1) (s.data_size + count))
          (mex_mpfr_allocate true d count s).2).data_capacity := by
    rw [hMFds, hMFcap]
    omega
  have hA2 := mex_mpfr_allocate_no_fit_no_grow true d count
    (mex_mpfr_mark_free true d
      (idx_t.mk (s.data_size + 1) (s.data_size + count))
      (mex_mpfr_allocate true d count s).2) hc0 hff2 hng2
  refine ⟨idx_t.mk (s.data_size + 1) (s.data_size + count), hA1r, ?_, ?_⟩
  · rw [hA2]
    simp only [mex_mpfr_allocate_tail]
    rw [hMFds, if_pos hvr]
  · rw [hA2]
    simp only [mex_mpfr_allocate_tail]
    exact hMFcap

/-- Allocate, mark free, allocate from a well formed compressed free list,
when no free-list entry fits count exactly: the C code hands out the same
range twice and the second allocation does not grow the pool. -/
theorem alloc_free_alloc_reuse {V : Type} (d : V) (count : Nat)
    (hcount : 0 < count) (s : MState V)
    (hok : ∀ f ∈ s.free_list, entry_ok s.data_size f)
    (hdis : s.free_list.Pairwise idx_disjoint)
    (hnadj : s.free_list.Pairwise (fun a b => adj a b = false))
    (hends : ∀ f ∈ s.free_list, f.end_ ≠ s.data_size)
    (hnoexact : ∀ i e, first_fit count s.free_list = some (i, e) →
      count < length e) :
    ∃ r : idx_t,
      (mex_mpfr_allocate true d count s).1 = some r ∧
      (mex_mpfr_allocate true d count
          (mex_mpfr_mark_free true d r (mex_mpfr_allocate true d count s).2)).1
        = some r ∧
      (mex_mpfr_allocate true d count
          (mex_mpfr_mark_free true d r
            (mex_mpfr_allocate true d count s).2)).2.data_capacity
        = (mex_mpfr_allocate true d count s).2.data_capacity := by
  cases hff : first_fit count s.free_list with
  | some p =>
    exact alloc_reuse_carve d count hcount s p.1 p.2 hok hdis hnadj hends
      (by rw [hff]) (hnoexact p.1 p.2 (by rw [hff]))
  | none => exact alloc_reuse_tail d count hcount s hok hnadj hends hff

/-- The first-fit branch of mex_mpfr_allocate, evaluated without deciding
validity: the returned option is the validity test on the carved range, the
state update is a set or an eraseIdx depending on a strict fit. -/
theorem mex_mpfr_allocate_fit_eq {V : Type} (g : Bool) (d : V) (count : Nat)
    (s : MState V) (i : Nat) (e : idx_t) (hc0 : count ≠ 0)
    (hff : first_fit count s.free_list = some (i, e)) :
    mex_mpfr_allocate g d count s =
      ((if is_valid s.data_size (idx_t.mk e.start (e.start + count - 1))
          then some (idx_t.mk e.start (e.start + count - 1)) else none),
       if count < length e then
         { s with free_list :=
             s.free_list.set i (idx_t.mk (e.start + count) e.end_) }
       else { s with free_list := s.free_list.eraseIdx i }) := by
  rw [mex_mpfr_allocate, if_neg hc0]
  by_cases hcar : count < length e
  · simp only [hff, if_pos hcar]
  · simp only [hff, if_neg hcar]

/-- The growth-failure branch of mex_mpfr_allocate: no fit, insufficient
capacity and a failed reallocation return 0 with the data pointer
overwritten by the NULL result. -/
theorem mex_mpfr_allocate_grow_fail {V : Type} (d : V) (count : Nat)
    (s : MState V) (hc0 : count ≠ 0)
    (hff : first_fit count s.free_list = none)
    (hgrow : s.data_size + count > s.data_capacity) :
    mex_mpfr_allocate false d count s = (none, { s with data_null := true }) := by
  rw [mex_mpfr_allocate, if_neg hc0]
  simp only [hff, if_pos hgrow, Bool.false_eq_true, if_false]

/-- When the tail-allocation path returns a range, it is the top count
slots of the grown pool and it passes the validity test against the new
data size. -/
theorem mex_mpfr_allocate_tail_some {V : Type} (count : Nat) (s1 : MState V)
    (r : idx_t) (h : (mex_mpfr_allocate_tail count s1).1 = some r) :
    r = idx_t.mk (s1.data_size + 1) (s1.data_size + count) ∧
      is_valid (mex_mpfr_allocate_tail count s1).2.data_size r = true := by
  simp only [mex_mpfr_allocate_tail] at h ⊢
  by_cases hv : is_valid (s1.data_size + count)
      (idx_t.mk (s1.data_size + 1) (s1.data_size + count)) = true
  · rw [if_pos hv] at h
    have hr := (Option.some.inj h).symm
    subst hr
    exact ⟨rfl, hv⟩
  · rw [if_neg hv] at h
    cases h

/-- extract_prec succeeds exactly when extract_ui succeeds with a value
strictly between the two precision bounds. -/
theorem extract_prec_iff (PREC_MIN PREC_MAX idx : Nat)
    (prhs : List mxArray) (p : Nat) :
    extract_prec PREC_MIN PREC_MAX idx prhs = some p ↔
      extract_ui idx prhs = some p ∧ PREC_MIN < p ∧ p < PREC_MAX := by
  constructor
  · intro h
    rw [extract_prec] at h
    cases hui : extract_ui idx prhs with
    | none => rw [hui] at h; cases h
    | some ui =>
      simp only [hui] at h
      by_cases hb : PREC_MIN < ui ∧ ui < PREC_MAX
      · rw [if_pos hb] at h
        have := Option.some.inj h
        subst this
        exact ⟨rfl, hb⟩
      · rw [if_neg hb] at h
        cases h
  · rintro ⟨hui, hb⟩
    rw [extract_prec]
    simp only [hui]
    rw [if_pos hb]

/-! The ten claims. -/

/-- C1: the claim states that a multiply call with mismatched operand
shapes fails with a shape error, performs no arithmetic, and leaves the
output range C exactly as before.  In the code, MEX_FCN_ERR only sets the
throw_error flag without breaking out of the switch, so the shape checks of
the mtimes dispatcher fall through into the kernel call: on this concrete
call with length (B) = 1 different from K * N = 2, the error is reported
AND the kernel runs, overwriting C slot 0 from 1 to 24. -/
theorem C1_shape_error_kernel_still_runs :
    (mtimes_dispatch (fun a b c : Int => (a * b + c, 0))
        (idx_t.mk 1 1) (idx_t.mk 2 3) (idx_t.mk 4 4) 1 1 1
        (fun n => (n : Int) + 1)).1 = true ∧
      (mtimes_dispatch (fun a b c : Int => (a * b + c, 0))
          (idx_t.mk 1 1) (idx_t.mk 2 3) (idx_t.mk 4 4) 1 1 1
          (fun n => (n : Int) + 1)).2.1 0 = 24 ∧
      ((fun n => (n : Int) + 1) 0 = 1) := by
  refine ⟨by decide, by decide, by decide⟩

/-- C2 (amended): on a conforming call whose output range C is disjoint
from the ranges of A and B, each element C[i,j] produced by the sequential
strategies equals the K-step fused-multiply-add accumulation of
A[i,k]*B[k,j] started from the PRIOR value of C[i,j]: the kernel computes
C += A*B, not C = A*B as claimed. -/
theorem C2_mmm_accumulates_into_prior_C {V : Type}
    (fma : V → V → V → V × Int) (cC cA cB M N K : Nat)
    (hCA : cC + M * N ≤ cA ∨ cA + M * K ≤ cC)
    (hCB : cC + M * N ≤ cB ∨ cB + K * N ≤ cC)
    (σ : KState V) (i j : Nat) (hi : i < M) (hj : j < N) :
    (mmm_strategy1 fma 1 cC cA cB M N K σ).1 (cC + M * j + i) =
        spec_fma_accumulate fma σ.1 (σ.1 (cC + M * j + i)) cA cB M K i j ∧
      (mmm_strategy2 fma 1 cC cA cB M N K σ).1 (cC + M * j + i) =
        spec_fma_accumulate fma σ.1 (σ.1 (cC + M * j + i)) cA cB M K i j := by
  have hl : ∀ c ∈ cells_rm M N, c.1 < M ∧ c.2 < N :=
    fun c hc => mem_cells_rm.mp hc
  have s1 := mmm_cells_fold_spec fma 1 cC cA cB M N K hCA hCB
    (cells_rm M N) hl (cells_w_nodup _ hl (cells_rm_nodup M N))
    (cells_w2_nodup _ hl (cells_rm_nodup M N)) σ
  have e1 : mmm_strategy1 fma 1 cC cA cB M N K σ =
      (cells_rm M N).foldl
        (fun σ c => mmm_cell fma 1 cC cA cB M K σ c.1 c.2) σ :=
    mmm_strategy1_eq_cells fma 1 cC cA cB M N K σ
  have hcell := s1.1 (i, j) (mem_cells_rm.mpr ⟨hi, hj⟩)
  have hval : (mmm_strategy1 fma 1 cC cA cB M N K σ).1 (cC + M * j + i) =
      spec_fma_accumulate fma σ.1 (σ.1 (cC + M * j + i)) cA cB M K i j := by
    rw [e1]
    exact hcell.trans (mmm_cell_vs_fst_eq fma σ.1 cC cA cB M K i j)
  refine ⟨hval, ?_⟩
  rw [← mmm_strategies_agree fma cC cA cB M N K hCA hCB σ]
  exact hval

/-- C2 counterexample: with M = N = K = 1, prior C value 100, A = 2 and
B = 3, the kernel leaves 106 in C while the claimed fresh matrix product
entry is 6. -/
theorem C2_counterexample_not_fresh_product :
    (mmm_strategy1 (fun a b c : Int => (a * b + c, 0)) 1 0 1 2 1 1 1
        (((fun n => if n = 0 then (100 : Int) else if n = 1 then 2 else 3),
          fun _ => 0) : KState Int)).1 0 = 106 ∧
      spec_matrix_product_entry (fun a b c : Int => (a * b + c, 0)) 0
        (fun n => if n = 0 then (100 : Int) else if n = 1 then 2 else 3)
        1 2 1 1 0 0 = 6 := by
  refine ⟨by decide, by decide⟩

/-- C2 witness: the amended statement at a concrete disjoint call. -/
theorem C2_witness :
    (mmm_strategy1 (fun a b c : Int => (a * b + c, 0)) 1 0 1 2 1 1 1
        (((fun n => if n = 0 then (100 : Int) else if n = 1 then 2 else 3),
          fun _ => 0) : KState Int)).1 (0 + 1 * 0 + 0) =
      spec_fma_accumulate (fun a b c : Int => (a * b + c, 0))
        (((fun n => if n = 0 then (100 : Int) else if n = 1 then 2 else 3),
          fun _ => 0) : KState Int).1
        ((((fun n => if n = 0 then (100 : Int) else if n = 1 then 2 else 3),
          fun _ => 0) : KState Int).1 (0 + 1 * 0 + 0)) 1 2 1 1 0 0 :=
  (C2_mmm_accumulates_into_prior_C (fun a b c : Int => (a * b + c, 0))
    0 1 2 1 1 1 (Or.inl (by decide)) (Or.inl (by decide))
    (((fun n => if n = 0 then (100 : Int) else if n = 1 then 2 else 3),
      fun _ => 0) : KState Int) 0 0 (by decide) (by decide)).1

/-- C3 (amended): when the output range C is disjoint from the ranges of
both operands, the two sequential strategies of mpfr_apa_mmm (plain ijk and
plain jik loops) produce identical final states: same values in C and same
per-element status codes.  Under operand aliasing they can disagree (see
the counterexample), because every cell reads its operands live from the
partially overwritten pool. -/
theorem C3_sequential_strategies_agree {V : Type}
    (fma : V → V → V → V × Int) (cC cA cB M N K : Nat)
    (hCA : cC + M * N ≤ cA ∨ cA + M * K ≤ cC)
    (hCB : cC + M * N ≤ cB ∨ cB + K * N ≤ cC)
    (σ : KState V) :
    mmm_strategy1 fma 1 cC cA cB M N K σ =
      mmm_strategy2 fma 1 cC cA cB M N K σ :=
  mmm_strategies_agree fma cC cA cB M N K hCA hCB σ

/-- C3 counterexample: a call whose B range aliases the first column of C
(cB = cC = 0, cA = 4, M = N = 2, K = 1, pool slot n holding n + 1): the two
sequential strategies disagree on C slot 2 (13 versus 193). -/
theorem C3_counterexample_aliasing :
    (mmm_strategy1 (fun a b c : Int => (a * b + c, 0)) 1 0 4 0 2 2 1
        (((fun n => (n : Int) + 1), fun _ => 0) : KState Int)).1 2 = 13 ∧
      (mmm_strategy2 (fun a b c : Int => (a * b + c, 0)) 1 0 4 0 2 2 1
        (((fun n => (n : Int) + 1), fun _ => 0) : KState Int)).1 2 = 193 := by
  refine ⟨by decide, by decide⟩

/-- C3 witness: the amended agreement at a concrete disjoint call. -/
theorem C3_witness :
    mmm_strategy1 (fun a b c : Int => (a * b + c, 0)) 1 0 4 6 2 1 1
        (((fun n => (n : Int) + 1), fun _ => 0) : KState Int) =
      mmm_strategy2 (fun a b c : Int => (a * b + c, 0)) 1 0 4 6 2 1 1
        (((fun n => (n : Int) + 1), fun _ => 0) : KState Int) :=
  C3_sequential_strategies_agree (fun a b c : Int => (a * b + c, 0))
    0 4 6 2 1 1 (Or.inl (by decide)) (Or.inl (by decide))
    (((fun n => (n : Int) + 1), fun _ => 0) : KState Int)

/-- C4 (amended): from a well formed compressed free-list state in which
no entry's length equals count exactly, the sequence allocate (count),
markFree of the returned range, allocate (count) hands out the identical
range twice and the second allocation leaves the data capacity unchanged.
When an entry fits exactly, the first allocation removes it and markFree
re-appends the freed range at the END of the list, so the second first-fit
scan can pick a different entry (see the counterexample). -/
theorem C4_alloc_free_alloc_reuse {V : Type} (d : V) (count : Nat)
    (hcount : 0 < count) (s : MState V)
    (hok : ∀ f ∈ s.free_list, entry_ok s.data_size f)
    (hdis : s.free_list.Pairwise idx_disjoint)
    (hnadj : s.free_list.Pairwise (fun a b => adj a b = false))
    (hends : ∀ f ∈ s.free_list, f.end_ ≠ s.data_size)
    (hnx : ∀ f ∈ s.free_list, length f ≠ count) :
    ∃ r : idx_t,
      (mex_mpfr_allocate true d count s).1 = some r ∧
      (mex_mpfr_allocate true d count
          (mex_mpfr_mark_free true d r (mex_mpfr_allocate true d count s).2)).1
        = some r ∧
      (mex_mpfr_allocate true d count
          (mex_mpfr_mark_free true d r
            (mex_mpfr_allocate true d count s).2)).2.data_capacity
        = (mex_mpfr_allocate true d count s).2.data_capacity := by
  refine alloc_free_alloc_reuse d count hcount s hok hdis hnadj hends ?_
  intro i e hff
  obtain ⟨hi, hie, hcnt, -⟩ := first_fit_spec count s.free_list i e hff
  have hmem : e ∈ s.free_list := by
    rw [← hie]
    exact List.getElem_mem hi
  have hne := hnx e hmem
  omega

/-- A pool state with a free list holding the exact-fit entry [10, 14] and
the larger entry [20, 30]. -/
def c4ex_state : MState Int :=
  { data_null := false, data_capacity := 50, data_size := 40,
    vals := fun _ => 0, free_null := false,
    free_list := [idx_t.mk 10 14, idx_t.mk 20 30], free_list_capacity := 10 }

/-- C4 counterexample: with an exact-fit first entry [10, 14], allocate (5)
returns [10, 14] and removes the entry; markFree appends the range at the
end of the list, after [20, 30]; the second allocate (5) then carves the
now-first entry [20, 30] and returns [20, 24], not the original range. -/
theorem C4_counterexample_exact_fit :
    (mex_mpfr_allocate true (0 : Int) 5 c4ex_state).1 = some (idx_t.mk 10 14) ∧
      (mex_mpfr_allocate true (0 : Int) 5
          (mex_mpfr_mark_free true (0 : Int) (idx_t.mk 10 14)
            (mex_mpfr_allocate true (0 : Int) 5 c4ex_state).2)).1
        = some (idx_t.mk 20 24) ∧
      idx_t.mk 20 24 ≠ idx_t.mk 10 14 := by
  refine ⟨by decide, by decide, by decide⟩

/-- A pool state whose single free-list entry [10, 20] is longer than any
exact fit of five slots. -/
def c4w_state : MState Int :=
  { data_null := false, data_capacity := 50, data_size := 40,
    vals := fun _ => 0, free_null := false,
    free_list := [idx_t.mk 10 20], free_list_capacity := 10 }

/-- C4 witness: the amended reuse statement at a concrete carving state. -/
theorem C4_witness :
    ∃ r : idx_t,
      (mex_mpfr_allocate true (0 : Int) 5 c4w_state).1 = some r ∧
      (mex_mpfr_allocate true (0 : Int) 5
          (mex_mpfr_mark_free true (0 : Int) r
            (mex_mpfr_allocate true (0 : Int) 5 c4w_state).2)).1
        = some r ∧
      (mex_mpfr_allocate true (0 : Int) 5
          (mex_mpfr_mark_free true (0 : Int) r
            (mex_mpfr_allocate true (0 : Int) 5 c4w_state).2)).2.data_capacity
        = (mex_mpfr_allocate true (0 : Int) 5 c4w_state).2.data_capacity :=
  C4_alloc_free_alloc_reuse 0 5 (by decide) c4w_state
    (by
      intro f hf
      rw [show c4w_state.free_list = [idx_t.mk 10 20] from rfl,
        List.mem_singleton] at hf
      subst hf
      exact ⟨by decide, by decide, by decide⟩)
    (by simp [c4w_state])
    (by simp [c4w_state])
    (by decide)
    (by decide)

/-- C5 (amended): allocate preserves the free-list invariant (well formed,
pairwise disjoint entries) unconditionally; markFree preserves it provided
the marked range does not overlap any current entry (the code performs no
such check: double freeing breaks the invariant, see the counterexample);
and whenever markFree reaches its compaction, the compressed conditions (no
adjacent entries, no entry ending at the data size) hold afterwards. -/
theorem C5_invariant_preservation {V : Type} (g : Bool) (d : V)
    (count : Nat) (idx : idx_t) (s : MState V) (hinv : FLInv s)
    (hdisj : ∀ e ∈ s.free_list, idx_disjoint idx e)
    (hv : is_valid s.data_size idx = true)
    (hgrow : s.free_list.length ≠ s.free_list_capacity ∨ g = true) :
    FLInv (mex_mpfr_allocate g d count s).2 ∧
      FLInv (mex_mpfr_mark_free g d idx s) ∧
      FLCompressed (mex_mpfr_mark_free g d idx s) := by
  obtain ⟨hok, hdis⟩ := hinv
  exact ⟨mex_mpfr_allocate_inv g d count s hok hdis,
    mex_mpfr_mark_free_inv g d idx s hok hdis hdisj,
    mex_mpfr_mark_free_compressed g d idx s hv hgrow⟩

/-- A pool state whose free list already holds [5, 10]. -/
def c5ex_state : MState Int :=
  { data_null := false, data_capacity := 30, data_size := 20,
    vals := fun _ => 0, free_null := false,
    free_list := [idx_t.mk 5 10], free_list_capacity := 10 }

/-- C5 counterexample: marking the already-free range [5, 10] free again
leaves two identical overlapping entries on the list — the pairwise
disjointness of the invariant is broken, and no compression rule merges
identical ranges (they are not adjacent in the sense of the code's test). -/
theorem C5_counterexample_double_free :
    (mex_mpfr_mark_free true (0 : Int) (idx_t.mk 5 10) c5ex_state).free_list
        = [idx_t.mk 5 10, idx_t.mk 5 10] ∧
      ¬ idx_disjoint (idx_t.mk 5 10) (idx_t.mk 5 10) := by
  refine ⟨by decide, ?_⟩
  intro h
  rcases h with h | h <;> exact absurd h (by decide)

/-- C5 witness: invariant preservation at a concrete state and a disjoint
valid range. -/
theorem C5_witness :
    FLInv (mex_mpfr_allocate true (0 : Int) 3 c5ex_state).2 ∧
      FLInv (mex_mpfr_mark_free true (0 : Int) (idx_t.mk 12 15) c5ex_state) ∧
      FLCompressed
        (mex_mpfr_mark_free true (0 : Int) (idx_t.mk 12 15) c5ex_state) :=
  C5_invariant_preservation true 0 3 (idx_t.mk 12 15) c5ex_state
    (⟨by
        intro f hf
        rw [show c5ex_state.free_list = [idx_t.mk 5 10] from rfl,
          List.mem_singleton] at hf
        subst hf
        exact ⟨by decide, by decide, by decide⟩,
      by simp [c5ex_state]⟩)
    (by
      intro f hf
      rw [show c5ex_state.free_list = [idx_t.mk 5 10] from rfl,
        List.mem_singleton] at hf
      subst hf
      exact Or.inr (by decide))
    (by decide)
    (Or.inr rfl)

/-- C6: allocate fails on count = 0, and whenever it returns a range the
range passes the validity test against the resulting data size (1 <= start
<= end <= size) and has length exactly count. -/
theorem C6_allocate_contract {V : Type} (g : Bool) (d : V) (count : Nat)
    (s : MState V) (r : idx_t) :
    (mex_mpfr_allocate g d 0 s).1 = none ∧
      ((mex_mpfr_allocate g d count s).1 = some r →
        is_valid (mex_mpfr_allocate g d count s).2.data_size r = true ∧
          length r = count) := by
  constructor
  · rw [mex_mpfr_allocate]
    rfl
  · intro h
    by_cases hc : count = 0
    · subst hc
      rw [mex_mpfr_allocate] at h
      cases h
    cases hff : first_fit count s.free_list with
    | some p =>
      obtain ⟨i, e⟩ := p
      rw [mex_mpfr_allocate_fit_eq g d count s i e hc hff] at h ⊢
      by_cases hval : is_valid s.data_size
          (idx_t.mk e.start (e.start + count - 1)) = true
      · rw [if_pos hval] at h
        have hr := (Option.some.inj h).symm
        subst hr
        constructor
        · by_cases hcar : count < length e
          · rw [if_pos hcar]
            exact hval
          · rw [if_neg hcar]
            exact hval
        · show e.start + count - 1 - e.start + 1 = count
          omega
      · rw [if_neg hval] at h
        cases h
    | none =>
      by_cases hgrow : s.data_size + count > s.data_capacity
      · cases g with
        | false =>
          rw [mex_mpfr_allocate_grow_fail d count s hc hff hgrow] at h
          cases h
        | true =>
          rw [mex_mpfr_allocate_no_fit_grow d count s hc hff hgrow] at h ⊢
          obtain ⟨hr, hv⟩ := mex_mpfr_allocate_tail_some count _ r h
          refine ⟨hv, ?_⟩
          subst hr
          show s.data_size + count - (s.data_size + 1) + 1 = count
          omega
      · rw [mex_mpfr_allocate_no_fit_no_grow g d count s hc hff hgrow] at h ⊢
        obtain ⟨hr, hv⟩ := mex_mpfr_allocate_tail_some count s r h
        refine ⟨hv, ?_⟩
        subst hr
        show s.data_size + count - (s.data_size + 1) + 1 = count
        omega

/-- A full pool (data size equals capacity) with an empty free list. -/
def c7a_state : MState Int :=
  { data_null := false, data_capacity := 10, data_size := 10,
    vals := fun _ => 0, free_null := false, free_list := [],
    free_list_capacity := 5 }

/-- A state whose free list is exactly full. -/
def c7b_state : MState Int :=
  { data_null := false, data_capacity := 10, data_size := 10,
    vals := fun _ => 0, free_null := false, free_list := [idx_t.mk 5 6],
    free_list_capacity := 1 }

/-- C7: the claim states that a failed growth leaves the pool exactly as
before the call.  In the code both growth sites assign the realloc result
to the global pointer BEFORE checking it for NULL, so on failure the old
buffer pointer is lost while capacity, size and the entry counters keep
their old values: allocate flips the data pointer to NULL (data_null) and
mark free flips the free-list pointer to NULL (free_null) — the observable
state afterwards is corrupted, not the prior state. -/
theorem C7_growth_failure_loses_pointer :
    ((mex_mpfr_allocate false (0 : Int) 3 c7a_state).1 = none ∧
        (mex_mpfr_allocate false (0 : Int) 3 c7a_state).2.data_null = true ∧
        c7a_state.data_null = false) ∧
      ((mex_mpfr_mark_free false (0 : Int) (idx_t.mk 8 9)
            c7b_state).free_null = true ∧
        c7b_state.free_null = false) := by
  refine ⟨⟨by decide, by decide, by decide⟩, by decide, by decide⟩

/-- C8 (amended): on the live region, free_list_remove (i) is exactly the
deletion of entry i — the resulting size is n - 1, entries before i are
unchanged and entries from i on are the old next entries, in their original
relative order.  But its final loop iteration reads backing slot n, one
past the live region (the loop runs free_list[m] = free_list[m + 1] up to
m = n - 1), copying the out-of-live-region entry into the now dead slot
n - 1: the claim that only indices below n are read does not hold. -/
theorem C8_remove_live_region (f : Nat → idx_t) (size i : Nat)
    (hi : i < size) :
    (free_list_remove f size i).2 = size - 1 ∧
      (∀ m, m < size - 1 →
        (free_list_remove f size i).1 m =
          if m < i then f m else f (m + 1)) ∧
      (free_list_remove f size i).1 (size - 1) = f size := by
  rw [free_list_remove]
  refine ⟨rfl, ?_, ?_⟩
  · intro m hm
    show free_list_remove_loop f size i m = _
    rw [free_list_remove_loop_apply]
    by_cases hmi : m < i
    · rw [if_pos hmi, if_neg (by omega)]
    · rw [if_neg hmi, if_pos ⟨by omega, by omega⟩]
  · show free_list_remove_loop f size i (size - 1) = _
    rw [free_list_remove_loop_apply, if_pos ⟨by omega, by omega⟩,
      show size - 1 + 1 = size from by omega]

/-- C8 counterexample: two backing arrays agreeing on the whole live
region (indices below 2) end up different after free_list_remove (0),
because the final loop iteration reads index 2, one past the live region:
the removal does not read only live entries. -/
theorem C8_counterexample_overread :
    (∀ m, m < 2 →
        (fun n => idx_t.mk n n) m =
          (fun n => if n < 2 then idx_t.mk n n else idx_t.mk 99 99) m) ∧
      free_list_remove_loop (fun n => idx_t.mk n n) 2 0 1 ≠
        free_list_remove_loop
          (fun n => if n < 2 then idx_t.mk n n else idx_t.mk 99 99) 2 0 1 := by
  constructor
  · decide
  · rw [free_list_remove_loop_apply, free_list_remove_loop_apply]
    decide

/-- C8 witness: the live-region characterization at a concrete array. -/
theorem C8_witness :
    (free_list_remove (fun n => idx_t.mk n n) 2 0).2 = 2 - 1 ∧
      (∀ m, m < 2 - 1 →
        (free_list_remove (fun n => idx_t.mk n n) 2 0).1 m =
          if m < 0 then idx_t.mk m m else idx_t.mk (m + 1) (m + 1)) ∧
      (free_list_remove (fun n => idx_t.mk n n) 2 0).1 (2 - 1) =
        idx_t.mk 2 2 :=
  C8_remove_live_region (fun n => idx_t.mk n n) 2 0 (by decide)

/-- C9: transposing an M x N range into a disjoint range and transposing
the result back with the swapped row count reproduces the original values
exactly, when the element copy is exact (mpfr_set at sufficient precision)
and the three ranges involved are pairwise disjoint as the claim's setup
provides. -/
theorem C9_transpose_roundtrip {V : Type} (cp : V → V × Int)
    (rs1 rs2 o t u M N : Nat)
    (hcp : ∀ v, (cp v).1 = v) (hM : 0 < M)
    (hot : t + N * M ≤ o ∨ o + N * M ≤ t)
    (htu : u + M * N ≤ t ∨ t + M * N ≤ u)
    (σ : KState V) (n : Nat) (hn : n < M * N) :
    (mpfr_transpose cp rs2 u t M N
      (mpfr_transpose cp rs1 t o N M σ)).1 (u + n) = σ.1 (o + n) :=
  transpose_roundtrip cp rs1 rs2 o t u M N hcp hM hot htu σ n hn

/-- C9 witness: the round trip at a concrete 2 x 1 range. -/
theorem C9_witness :
    (mpfr_transpose (fun v : Int => (v, 0)) 1 20 10 2 1
      (mpfr_transpose (fun v : Int => (v, 0)) 1 10 0 1 2
        (((fun n => (n : Int)), fun _ => 0) : KState Int))).1 (20 + 1) =
      (((fun n => (n : Int)), fun _ => 0) : KState Int).1 (0 + 1) :=
  C9_transpose_roundtrip (fun v : Int => (v, 0)) 1 1 0 10 20 2 1
    (fun v => rfl) (by decide) (by decide) (by decide)
    (((fun n => (n : Int)), fun _ => 0) : KState Int) 1 (by decide)

/-- C10: extract_prec succeeds exactly when the argument decodes (as a
numeric scalar holding a finite integral non-negative double) to a value p
with MPFR_PREC_MIN < p < MPFR_PREC_MAX, both bounds strict: in particular
the boundary values MPFR_PREC_MIN and MPFR_PREC_MAX themselves are always
rejected. -/
theorem C10_extract_prec_strict_bounds (PREC_MIN PREC_MAX idx : Nat)
    (prhs : List mxArray) (p : Nat) :
    (extract_prec PREC_MIN PREC_MAX idx prhs = some p ↔
        (∃ a : mxArray, prhs[idx]? = some a ∧ a.is_scalar = true ∧
          a.is_numeric = true ∧ a.scalar = some (p : ℚ)) ∧
        PREC_MIN < p ∧ p < PREC_MAX) ∧
      extract_prec PREC_MIN PREC_MAX idx prhs ≠ some PREC_MIN ∧
      extract_prec PREC_MIN PREC_MAX idx prhs ≠ some PREC_MAX := by
  refine ⟨?_, ?_, ?_⟩
  · rw [extract_prec_iff, extract_ui_iff]
  · intro h
    have := (extract_prec_iff PREC_MIN PREC_MAX idx prhs PREC_MIN).mp h
    omega
  · intro h
    have := (extract_prec_iff PREC_MIN PREC_MAX idx prhs PREC_MAX).mp h
    omega

end Apa
